import Mathlib

/-!
Verification of the repo-analysis core (src/index.ts): a shallow embedding of
`processCommits`, `processData` (rename resolution), `analyzeSimilarities`
and `analyzeTopContributors`, with theorems about the specified properties.

Stateful JS objects keyed by strings are modelled as association lists kept
in property insertion order (JS string-keyed objects enumerate in insertion
order).  JS numbers holding git statistics are modelled as `Nat` (all values
are exact integer sums far below 2^53); the similarity quotient is modelled
as an exact rational.
-/

set_option maxHeartbeats 1000000

namespace RepoAnalysis

/-- A single file change of one commit, as reported by the numstat diff
(`DiffResultTextFile` in the source). -/
structure DiffFile where
  file : String
  changes : Nat
  insertions : Nat
  deletions : Nat
  binary : Bool
  deriving DecidableEq

/-- One element of a file's history list: the `{author, date, diff}` record
pushed by `processCommits`. -/
structure HistoryEntry where
  author : String
  date : String
  diff : DiffFile
  deriving DecidableEq

/-- A raw commit record (`DefaultLogFields`, with the optional numstat
diff reduced to its file list). -/
structure Commit where
  author_name : String
  date : String
  diff : Option (List DiffFile)
  deriving DecidableEq

/-- JS object member lookup on a string-keyed object, modelled as an
association list in property insertion order. -/
def lookupKey {β : Type} : List (String × β) → String → Option β
  | [], _ => none
  | p :: t, k => if p.1 = k then some p.2 else lookupKey t k

/-- JS object member assignment: overwrite the existing property in place, or
append a new property at the end of the insertion order. -/
def setKey {β : Type} : List (String × β) → String → β → List (String × β)
  | [], k, v => [(k, v)]
  | p :: t, k, v => if p.1 = k then (k, v) :: t else p :: setKey t k v

/-- JS `delete obj[k]`: remove the property. -/
def eraseKey {β : Type} : List (String × β) → String → List (String × β)
  | [], _ => []
  | p :: t, k => if p.1 = k then t else p :: eraseKey t k

/-- The `FileData` table: file path → ordered history entries. -/
abbrev FileData := List (String × List HistoryEntry)

/-- Reading `fileData[k]` through the guards of the source, which treat a
missing property like an empty history. -/
def lookupEntries (t : FileData) (k : String) : List HistoryEntry :=
  (lookupKey t k).getD []

/-- Inner loop of `processCommits` over one commit's file diffs: binary
changes are skipped; the entry is pushed onto the file's history and the
author is appended to the author list on first sight. -/
def pushFileDiff (author date : String) (acc : FileData × List String) (d : DiffFile) :
    FileData × List String :=
  if d.binary then acc
  else
    (setKey acc.1 d.file (lookupEntries acc.1 d.file ++ [⟨author, date, d⟩]),
     if acc.2.contains author then acc.2 else acc.2 ++ [author])

/-- The function `processCommits`: build the file-history table and the author list,
skipping commits without a diff and binary file changes. -/
def processCommits (commits : List Commit) : FileData × List String :=
  commits.foldl
    (fun acc c =>
      match c.diff with
      | none => acc
      | some files => files.foldl (pushFileDiff c.author_name c.date) acc)
    ([], [])

/-! ### The rename-pattern parser

The source tests each table key against `/{(.*?) => (.*?)}/g` and
`/^(.*?) => (.*?)$/g` and substitutes `$1` / `$2`.  The two regexes are
embedded as explicit backtracking matchers over the key's character list,
with JS semantics: lazy groups, leftmost match, and `.` refusing the four
line-terminator characters. -/

def lbrace : Char := Char.ofNat 123

def rbrace : Char := Char.ofNat 125

/-- JS regex `.` (no `s` flag): any character except a line terminator. -/
def isRegexDot (c : Char) : Bool :=
  !(c = Char.ofNat 10 || c = Char.ofNat 13 || c = Char.ofNat 0x2028 || c = Char.ofNat 0x2029)

/-- The four characters of `" => "`. -/
def arrowChars : List Char := [' ', '=', '>', ' ']

/-- Does the text start with the four characters of `" => "`? -/
def startsWithArrow (cs : List Char) : Bool := arrowChars.isPrefixOf cs

/-- Lazy `(.*?)}`: the shortest run of dot characters up to a closing
brace. -/
def findCloseBrace : List Char → Option (List Char × List Char)
  | [] => none
  | c :: cs =>
    if c = rbrace then some ([], cs)
    else if isRegexDot c then (findCloseBrace cs).map (fun pr => (c :: pr.1, pr.2))
    else none

/-- Backtracking completion of `{(.*?) => (.*?)}` just after the opening
brace: grow the lazy first group one character at a time until `" => "`
followed by a lazily closed brace completes the match. -/
def matchAfterBrace : List Char → Option (List Char × List Char × List Char)
  | [] => none
  | c :: cs =>
    if startsWithArrow (c :: cs) then
      match findCloseBrace ((c :: cs).drop 4) with
      | some (g2, rest) => some ([], g2, rest)
      | none =>
        if isRegexDot c then (matchAfterBrace cs).map (fun pr => (c :: pr.1, pr.2.1, pr.2.2))
        else none
    else
      if isRegexDot c then (matchAfterBrace cs).map (fun pr => (c :: pr.1, pr.2.1, pr.2.2))
      else none

/-- Leftmost match of `/{(.*?) => (.*?)}/`: the prefix before the match,
the two groups, and the rest after the closing brace. -/
def firstBraceMatch : List Char → Option (List Char × List Char × List Char × List Char)
  | [] => none
  | c :: cs =>
    if c = lbrace then
      match matchAfterBrace cs with
      | some (g1, g2, rest) => some ([], g1, g2, rest)
      | none => (firstBraceMatch cs).map (fun pr => (c :: pr.1, pr.2.1, pr.2.2.1, pr.2.2.2))
    else (firstBraceMatch cs).map (fun pr => (c :: pr.1, pr.2.1, pr.2.2.1, pr.2.2.2))

/-- The substitution `file.replace(regex1, "$1" / "$2")`: replace every match of the brace
rename pattern by the selected group, scanning left to right.  The extra
`Nat` is an upper bound on the number of matches; callers pass the string
length, which always suffices since every match consumes at least six
characters. -/
def replaceAux (sel : Bool) : Nat → List Char → List Char
  | 0, cs => cs
  | n + 1, cs =>
    match firstBraceMatch cs with
    | none => cs
    | some (p, g1, g2, r) => p ++ (if sel then g1 else g2) ++ replaceAux sel n r

/-- The substitution `.replace(/\/\//g, "/")`: collapse each non-overlapping doubled path
separator, scanning left to right.  The extra `Nat` bounds the number of
scanning steps; callers pass the string length, which always suffices since
every step consumes at least one character. -/
def collapseAux : Nat → List Char → List Char
  | 0, cs => cs
  | _ + 1, [] => []
  | _ + 1, [c] => [c]
  | n + 1, c :: c2 :: rest =>
    if c = '/' ∧ c2 = '/' then '/' :: collapseAux n rest
    else c :: collapseAux n (c2 :: rest)

/-- Separator collapse at full fuel. -/
def collapseSlashes (cs : List Char) : List Char :=
  collapseAux cs.length cs

/-- Group substitution plus separator collapse for the brace form. -/
def applyBraceReplace (sel : Bool) (s : String) : String :=
  ⟨collapseSlashes (replaceAux sel s.data.length s.data)⟩

/-- Are all characters matchable by the regex `.`? -/
def allDots (cs : List Char) : Bool := cs.all isRegexDot

/-- The whole-path rename regex `/^(.*?) => (.*?)$/`: split at the first
`" => "` whose right side consists of dot characters running to the end of
the string. -/
def splitArrow : List Char → Option (List Char × List Char)
  | [] => none
  | c :: cs =>
    if startsWithArrow (c :: cs) && allDots ((c :: cs).drop 4) then
      some ([], (c :: cs).drop 4)
    else if isRegexDot c then (splitArrow cs).map (fun pr => (c :: pr.1, pr.2))
    else none

/-- Result of testing one table key against the two rename patterns. -/
inductive RenameParse
  | brace (f t : String)
  | arrow (f t : String)
  | plain
  deriving DecidableEq

/-- The rename-edge extraction at the top of `processData`'s key loop: the
inline brace form is tried first, then the whole-path arrow form. -/
def parseRename (file : String) : RenameParse :=
  if (firstBraceMatch file.data).isSome then
    RenameParse.brace (applyBraceReplace true file) (applyBraceReplace false file)
  else
    match splitArrow file.data with
    | some (a, b) => RenameParse.arrow (⟨a⟩ : String) (⟨b⟩ : String)
    | none => RenameParse.plain

/-! ### `processData` -/

/-- One iteration of `processData`'s key loop: if the key parses as a rename,
record the edge and move the key's history onto the target key (created at
the end of the insertion order when absent), then delete the key. -/
def extractStep (st : FileData × List (String × String)) (file : String) :
    FileData × List (String × String) :=
  match lookupKey st.1 file with
  | none => st
  | some entries =>
    match parseRename file with
    | RenameParse.brace f t =>
      (eraseKey (setKey st.1 t (lookupEntries st.1 t ++ entries)) file, st.2 ++ [(f, t)])
    | RenameParse.arrow f t =>
      (eraseKey (setKey st.1 t (lookupEntries st.1 t ++ entries)) file, st.2 ++ [(f, t)])
    | RenameParse.plain => st

/-- Phase 1 of `processData`: visit the keys present when the loop starts
(property keys added during a JS `for..in` enumeration are not visited),
moving rename-annotated histories and collecting the edges in discovery
order. -/
def extractRenames (t : FileData) : FileData × List (String × String) :=
  (t.map Prod.fst).foldl extractStep (t, [])

/-- One edge application inside the fixpoint loop: the edge is skipped unless
both endpoints currently hold a non-empty history; otherwise the source list
is spliced out and appended onto the target.  When the two endpoints are the
same key, the JS splice empties the shared array before `concat` reads it, so
the value is unchanged while a relocation is still reported. -/
def passEdge (t : FileData) (e : String × String) : FileData × Bool :=
  if lookupEntries t e.1 = [] || lookupEntries t e.2 = [] then (t, false)
  else
    let fs := lookupEntries t e.1
    let toAfter := if e.2 = e.1 then [] else lookupEntries t e.2
    (setKey (setKey t e.1 []) e.2 (toAfter ++ fs), true)

/-- One full pass over the (reversed) edge list, reporting whether any
relocation happened. -/
def passAll (t : FileData) (es : List (String × String)) : FileData × Bool :=
  es.foldl (fun acc e => let r := passEdge acc.1 e; (r.1, acc.2 || r.2)) (t, false)

/-- The `while (true)` fixpoint loop, with an explicit bound on the number of
passes.  The Boolean records whether a pass with zero relocations — the
loop's exit condition — was reached within the bound. -/
def loopPasses : Nat → FileData → List (String × String) → FileData × Bool
  | 0, t, _ => (t, false)
  | n + 1, t, es =>
    let r := passAll t es
    if r.2 then loopPasses n r.1 es else (r.1, true)

/-- The final sweep of `processData`: drop the rows whose history list was
emptied by the relocations. -/
def dropEmpty (t : FileData) : FileData :=
  t.filter (fun p => !p.2.isEmpty)

/-- The resolver on a table and an edge list: the fixpoint loop followed by
the empty-row sweep (the part of `processData` below edge extraction). -/
def resolveEdges (fuel : Nat) (t : FileData) (es : List (String × String)) :
    FileData × Bool :=
  let r := loopPasses fuel t es
  (dropEmpty r.1, r.2)

/-- All of `processData`: extract the edges from the keys, reverse the edge
list, run the fixpoint loop, and drop emptied rows. -/
def processData (fuel : Nat) (t : FileData) : FileData × Bool :=
  let r := extractRenames t
  resolveEdges fuel r.1 r.2.reverse

/-- The history entries of a table, in table order. -/
def allEntriesList (t : FileData) : List HistoryEntry :=
  (t.map Prod.snd).flatten

/-- The multiset of history entries of a table. -/
def allEntries (t : FileData) : Multiset HistoryEntry :=
  (allEntriesList t : List HistoryEntry)

/-! ### `analyzeSimilarities`

The developer weight table `developerData` is author → (file → accumulated
weight).  The source indexes `developerData[commit.author]` directly and
would throw on an author missing from the author list; the embedding totalises
that read with an empty map.  All whole-pipeline uses pass the author list
produced by `processCommits`, which contains every entry author, so the
embedding and the source agree there. -/

/-- JS string comparison `a < b`: lexicographic on the code units.  (For
basic-plane text this is lexicographic comparison of the code points, which
is what is modelled here.) -/
def charListLt : List Char → List Char → Bool
  | [], [] => false
  | [], _ :: _ => true
  | _ :: _, [] => false
  | c :: cs, d :: ds => if c < d then true else if d < c then false else charListLt cs ds

/-- The table `developerData`: author → file → accumulated weight. -/
abbrev DevData := List (String × List (String × Nat))

/-- The file-weight map of one author. -/
def devMap (dd : DevData) (a : String) : List (String × Nat) :=
  (lookupKey dd a).getD []

/-- One author's weight on one file (`?? 0` for a missing property). -/
def weightOn (m : List (String × Nat)) (f : String) : Nat :=
  (lookupKey m f).getD 0

/-- Processing one history entry of file `f`: zero-weight commits are
skipped, otherwise `diff.changes` is added to the author's weight on `f`. -/
def addWeight (f : String) (dd : DevData) (e : HistoryEntry) : DevData :=
  if e.diff.changes = 0 then dd
  else setKey dd e.author (setKey (devMap dd e.author) f (weightOn (devMap dd e.author) f + e.diff.changes))

/-- Build `developerData` from the resolved table: initialise an empty map
per author, then accumulate `diff.changes` per (author, file). -/
def buildDevData (t : FileData) (authors : List String) : DevData :=
  t.foldl (fun dd p => p.2.foldl (addWeight p.1) dd)
    (authors.foldl (fun dd a => setKey dd a []) [])

/-- The total `Object.values(developerData[a]).reduce((a, c) => a + c, 0)`. -/
def totalWeight (dd : DevData) (a : String) : Nat :=
  (devMap dd a).foldl (fun s p => s + p.2) 0

/-- The sum `similarWeightSum`: over the files of `a`'s map, when `b`'s weight on the
file is non-zero, both weights are added. -/
def sharedWeight (dd : DevData) (a b : String) : Nat :=
  (devMap dd a).foldl
    (fun s p =>
      let bw := weightOn (devMap dd b) p.1
      if bw = 0 then s else s + (p.2 + bw))
    0

/-- The similarity quotient of an ordered pair. -/
def similarity (dd : DevData) (a b : String) : ℚ :=
  (sharedWeight dd a b : ℚ) / ((totalWeight dd a + totalWeight dd b : Nat) : ℚ)

/-- The pair loop of `analyzeSimilarities`: for each pair `a < b` of authors,
skip it when the combined weight is under the fixed floor of 100, and emit
`(a, b, ⌊similarity · 100⌋)` when the similarity strictly exceeds the
threshold. -/
def analyzeSimilarities (dd : DevData) (authors : List String) (threshold : ℚ) :
    List (String × String × ℤ) :=
  authors.flatMap (fun a =>
    (authors.filter (fun b => charListLt a.data b.data)).filterMap (fun b =>
      if totalWeight dd a + totalWeight dd b < 100 then none
      else if threshold < similarity dd a b then
        some (a, b, Int.floor (similarity dd a b * 100))
      else none))

/-! ### `analyzeTopContributors` -/

/-- The per-author accumulator `authorChanges[author]`. -/
structure Totals where
  insertions : Nat
  deletions : Nat
  commits : Nat
  totalFilesModified : Nat
  deriving DecidableEq

/-- The all-zero record created on an author's first sight. -/
def zeroTotals : Totals := ⟨0, 0, 0, 0⟩

/-- Author totals table in insertion order. -/
abbrev AuthorTable := List (String × Totals)

/-- Read an author's totals (zero when absent). -/
def totalsOf (t : AuthorTable) (a : String) : Totals :=
  (lookupKey t a).getD zeroTotals

/-- Mutation of `authorChanges[author]`: create
the record on first sight, then apply the mutation. -/
def bumpTotals (t : AuthorTable) (a : String) (f : Totals → Totals) : AuthorTable :=
  match lookupKey t a with
  | none => t ++ [(a, f zeroTotals)]
  | some v => setKey t a (f v)

/-- First loop of `analyzeTopContributors`: sum insertions and deletions from
the resolved file histories. -/
def addInsertionsDeletions (fd : FileData) (t : AuthorTable) : AuthorTable :=
  fd.foldl
    (fun t p =>
      p.2.foldl
        (fun t e =>
          bumpTotals t e.author (fun v =>
            { v with
              insertions := v.insertions + e.diff.insertions
              deletions := v.deletions + e.diff.deletions }))
        t)
    t

/-- Second loop of `analyzeTopContributors`: count every raw commit and add
`commit.diff?.files.length ?? 0` — the raw file count, binary files
included. -/
def addCommitCounts (commits : List Commit) (t : AuthorTable) : AuthorTable :=
  commits.foldl
    (fun t c =>
      bumpTotals t c.author_name (fun v =>
        { v with
          commits := v.commits + 1
          totalFilesModified := v.totalFilesModified + ((c.diff.map List.length).getD 0) }))
    t

/-- The table `authorChanges` after both accumulation loops. -/
def buildAuthorChanges (fd : FileData) (commits : List Commit) : AuthorTable :=
  addCommitCounts commits (addInsertionsDeletions fd [])

/-- An author's accumulated insertions, the sort key. -/
def insertionsOf (t : AuthorTable) (a : String) : Nat :=
  (totalsOf t a).insertions

/-- Stable insertion of one author into a list sorted by insertions
descending: keep scanning while the resident has strictly more insertions,
so an earlier-seen author stays ahead of later-seen authors with equal
insertions. -/
def insertDesc (t : AuthorTable) (x : String) : List String → List String
  | [] => [x]
  | y :: ys => if insertionsOf t x < insertionsOf t y then y :: insertDesc t x ys else x :: y :: ys

/-- The sort `Object.keys(authorChanges).sort((a, b) => ins[b] - ins[a])`: the
ECMAScript sort is stable and the comparator is consistent, so any stable
sort by insertions descending computes it; a stable insertion sort is
used. -/
def sortDesc (t : AuthorTable) : List String → List String
  | [] => []
  | x :: xs => insertDesc t x (sortDesc t xs)

/-- The function `analyzeTopContributors`: sort the authors by insertions descending and
report the first `limit` of them with their totals. -/
def analyzeTopContributors (fd : FileData) (commits : List Commit) (limit : Nat) :
    List (String × Totals) :=
  let ac := buildAuthorChanges fd commits
  ((sortDesc ac (ac.map Prod.fst)).take limit).map (fun a => (a, totalsOf ac a))

/-! ### Concrete sample data used in witness and counterexample instances -/

/-- A sample non-binary diff with the given change counts. -/
def sampleDiff (f : String) (c i d : Nat) : DiffFile := ⟨f, c, i, d, false⟩

def entryA : HistoryEntry := ⟨"ann", "d1", sampleDiff "a" 1 1 0⟩

def entryAB : HistoryEntry := ⟨"bob", "d2", sampleDiff "x" 2 1 1⟩

def entryBC : HistoryEntry := ⟨"cal", "d3", sampleDiff "y" 3 2 1⟩

/-- A table whose keys encode the rename chain a → b → c, with the
rename-annotated keys in the enumeration order that discovers edge (a, b)
before edge (b, c). -/
def chainTable : FileData :=
  [("a", [entryA]), ("\x7ba => b\x7d", [entryAB]), ("\x7bb => c\x7d", [entryBC])]

/-- A one-key table used to instantiate the cycle-safety theorem. -/
def cycleTable : FileData := [("a", [entryA])]

/-- Example 1 of the spec: two developers, one commit each of weight 10 on
the same file. -/
def smallPairTable : FileData :=
  [("f", [⟨"x", "d1", sampleDiff "f" 10 5 5⟩, ⟨"y", "d2", sampleDiff "f" 10 5 5⟩])]

/-- Example 2 of the spec: the same two developers with weight 60 each on
the same file. -/
def bigPairTable : FileData :=
  [("f", [⟨"x", "d1", sampleDiff "f" 60 30 30⟩, ⟨"y", "d2", sampleDiff "f" 60 30 30⟩])]

/-- A commit whose only change is flagged binary. -/
def binaryCommit : Commit := ⟨"x", "d1", some [⟨"g", 7, 3, 4, true⟩]⟩

/-- A plain one-file commit. -/
def plainCommit : Commit := ⟨"x", "d1", some [sampleDiff "f" 5 3 2]⟩

/-! ### Association-list lemmas -/

theorem lookup_setKey_self {β : Type} (t : List (String × β)) (k : String) (v : β) :
    lookupKey (setKey t k v) k = some v := by
  induction t with
  | nil => simp [setKey, lookupKey]
  | cons p t ih =>
    by_cases h : p.1 = k
    · simp [setKey, lookupKey, h]
    · simp [setKey, lookupKey, h, ih]

theorem lookup_setKey_ne {β : Type} (t : List (String × β)) {k k' : String} (v : β)
    (h : k' ≠ k) : lookupKey (setKey t k v) k' = lookupKey t k' := by
  have hk : ¬(k = k') := fun hh => h hh.symm
  induction t with
  | nil => simp [setKey, lookupKey, hk]
  | cons p t ih =>
    by_cases hp : p.1 = k
    · subst hp
      simp [setKey, lookupKey, hk]
    · simp [setKey, lookupKey, hp, ih]

theorem lookup_eraseKey_ne {β : Type} (t : List (String × β)) {k k' : String}
    (h : k' ≠ k) : lookupKey (eraseKey t k) k' = lookupKey t k' := by
  have hk : ¬(k = k') := fun hh => h hh.symm
  induction t with
  | nil => simp [eraseKey]
  | cons p t ih =>
    by_cases hp : p.1 = k
    · subst hp
      simp [eraseKey, lookupKey, hk]
    · simp [eraseKey, lookupKey, hp, ih]

theorem setKey_setKey {β : Type} (t : List (String × β)) (k : String) (v w : β) :
    setKey (setKey t k v) k w = setKey t k w := by
  induction t with
  | nil => simp [setKey]
  | cons p t ih =>
    by_cases h : p.1 = k
    · simp [setKey, h]
    · simp [setKey, h, ih]

theorem allEntries_nil : allEntries [] = 0 := rfl

theorem allEntries_cons (p : String × List HistoryEntry) (t : FileData) :
    allEntries (p :: t) = (p.2 : Multiset HistoryEntry) + allEntries t := rfl

theorem allEntries_setKey (t : FileData) (k : String) (v : List HistoryEntry) :
    allEntries (setKey t k v) + (lookupEntries t k : Multiset HistoryEntry)
      = allEntries t + (v : Multiset HistoryEntry) := by
  induction t with
  | nil =>
    simp [setKey, lookupEntries, lookupKey, allEntries_cons, allEntries_nil, add_comm]
  | cons p t ih =>
    by_cases h : p.1 = k
    · simp only [setKey, lookupEntries, lookupKey, h, if_true, allEntries_cons,
        Option.getD_some]
      abel
    · simp only [setKey, lookupEntries, lookupKey, h, if_false, allEntries_cons,
        if_neg h]
      rw [add_assoc, add_assoc]
      exact congrArg _ ih

theorem allEntries_eraseKey (t : FileData) (k : String) :
    allEntries (eraseKey t k) + (lookupEntries t k : Multiset HistoryEntry)
      = allEntries t := by
  induction t with
  | nil => simp [eraseKey, lookupEntries, lookupKey, allEntries_nil]
  | cons p t ih =>
    by_cases h : p.1 = k
    · simp only [eraseKey, lookupEntries, lookupKey, h, if_true, allEntries_cons,
        Option.getD_some]
      abel
    · simp only [eraseKey, lookupEntries, lookupKey, h, if_false, allEntries_cons]
      rw [add_assoc]
      exact congrArg _ ih

/-! ### Decomposition of the regex matchers

Each successful match is shown to decompose its input literally, which pins
down the matched shape and yields the length facts used below. -/

theorem startsWithArrow_eq {cs : List Char} (h : startsWithArrow cs = true) :
    cs = arrowChars ++ cs.drop 4 := by
  obtain ⟨t, ht⟩ := List.isPrefixOf_iff_prefix.mp h
  rw [← ht]
  rfl

theorem findCloseBrace_eq : ∀ {cs g r : List Char},
    findCloseBrace cs = some (g, r) → cs = g ++ rbrace :: r := by
  intro cs
  induction cs with
  | nil => intro g r h; simp [findCloseBrace] at h
  | cons c cs ih =>
    intro g r h
    simp only [findCloseBrace] at h
    by_cases hc : c = rbrace
    · rw [if_pos hc] at h
      obtain ⟨hg, hr⟩ := Prod.mk.injEq .. ▸ Option.some.injEq .. ▸ h
      subst hg; subst hr; subst hc
      rfl
    · rw [if_neg hc] at h
      by_cases hd : isRegexDot c
      · rw [hd, if_pos rfl] at h
        obtain ⟨pr, hpr, hval⟩ := Option.map_eq_some'.mp h
        obtain ⟨hg, hr⟩ := Prod.mk.injEq .. ▸ hval
        subst hg; subst hr
        rw [ih hpr]
        rfl
      · rw [Bool.not_eq_true] at hd
        rw [hd] at h
        simp at h

theorem matchAfterBrace_eq : ∀ {cs g1 g2 r : List Char},
    matchAfterBrace cs = some (g1, g2, r) →
    cs = g1 ++ arrowChars ++ g2 ++ rbrace :: r := by
  intro cs
  induction cs with
  | nil => intro g1 g2 r h; simp [matchAfterBrace] at h
  | cons c cs ih =>
    intro g1 g2 r h
    simp only [matchAfterBrace] at h
    have hdot : ((matchAfterBrace cs).map fun pr => (c :: pr.1, pr.2.1, pr.2.2))
        = some (g1, g2, r) →
        c :: cs = g1 ++ arrowChars ++ g2 ++ rbrace :: r := by
      intro hm
      obtain ⟨pr, hpr, hval⟩ := Option.map_eq_some'.mp hm
      obtain ⟨G1, G2, R⟩ := pr
      have h1 : g1 = c :: G1 := (congrArg Prod.fst hval).symm
      have h2 : g2 = G2 := (congrArg (fun q => q.2.1) hval).symm
      have h3 : r = R := (congrArg (fun q => q.2.2) hval).symm
      subst h1; subst h2; subst h3
      rw [ih hpr]
      simp
    by_cases ha : startsWithArrow (c :: cs) = true
    · rw [if_pos ha] at h
      cases hf : findCloseBrace ((c :: cs).drop 4) with
      | some q =>
        rw [hf] at h
        obtain ⟨G2, R⟩ := q
        have hv := Option.some.inj h
        have h1 : g1 = ([] : List Char) := (congrArg Prod.fst hv).symm
        have h2 : g2 = G2 := (congrArg (fun q => q.2.1) hv).symm
        have h3 : r = R := (congrArg (fun q => q.2.2) hv).symm
        subst h1; subst h2; subst h3
        rw [List.nil_append, startsWithArrow_eq ha, findCloseBrace_eq hf]
        simp [List.append_assoc]
      | none =>
        rw [hf] at h
        by_cases hd : isRegexDot c
        · rw [hd, if_pos rfl] at h
          exact hdot h
        · rw [Bool.not_eq_true] at hd
          rw [hd] at h
          simp at h
    · rw [if_neg ha] at h
      by_cases hd : isRegexDot c
      · rw [hd, if_pos rfl] at h
        exact hdot h
      · rw [Bool.not_eq_true] at hd
        rw [hd] at h
        simp at h

theorem firstBraceMatch_eq : ∀ {cs p g1 g2 r : List Char},
    firstBraceMatch cs = some (p, g1, g2, r) →
    cs = p ++ lbrace :: (g1 ++ arrowChars ++ g2 ++ rbrace :: r) := by
  intro cs
  induction cs with
  | nil => intro p g1 g2 r h; simp [firstBraceMatch] at h
  | cons c cs ih =>
    intro p g1 g2 r h
    simp only [firstBraceMatch] at h
    have hrest : ((firstBraceMatch cs).map
          fun pr => (c :: pr.1, pr.2.1, pr.2.2.1, pr.2.2.2)) = some (p, g1, g2, r) →
        c :: cs = p ++ lbrace :: (g1 ++ arrowChars ++ g2 ++ rbrace :: r) := by
      intro hm
      obtain ⟨pr, hpr, hval⟩ := Option.map_eq_some'.mp hm
      obtain ⟨P, G1, G2, R⟩ := pr
      have h0 : p = c :: P := (congrArg Prod.fst hval).symm
      have h1 : g1 = G1 := (congrArg (fun q => q.2.1) hval).symm
      have h2 : g2 = G2 := (congrArg (fun q => q.2.2.1) hval).symm
      have h3 : r = R := (congrArg (fun q => q.2.2.2) hval).symm
      subst h0; subst h1; subst h2; subst h3
      rw [List.cons_append, ih hpr]
    by_cases hc : c = lbrace
    · rw [if_pos hc] at h
      cases hm : matchAfterBrace cs with
      | some q =>
        rw [hm] at h
        obtain ⟨G1, G2, R⟩ := q
        have hv := Option.some.inj h
        have h0 : p = ([] : List Char) := (congrArg Prod.fst hv).symm
        have h1 : g1 = G1 := (congrArg (fun q => q.2.1) hv).symm
        have h2 : g2 = G2 := (congrArg (fun q => q.2.2.1) hv).symm
        have h3 : r = R := (congrArg (fun q => q.2.2.2) hv).symm
        subst h0; subst h1; subst h2; subst h3
        rw [List.nil_append, hc, matchAfterBrace_eq hm]
      | none =>
        rw [hm] at h
        exact hrest h
    · rw [if_neg hc] at h
      exact hrest h

theorem firstBraceMatch_length {cs p g1 g2 r : List Char}
    (h : firstBraceMatch cs = some (p, g1, g2, r)) :
    cs.length = p.length + g1.length + g2.length + r.length + 6 := by
  rw [firstBraceMatch_eq h]
  simp [arrowChars]
  omega

theorem splitArrow_eq : ∀ {cs a b : List Char},
    splitArrow cs = some (a, b) → cs = a ++ arrowChars ++ b := by
  intro cs
  induction cs with
  | nil => intro a b h; simp [splitArrow] at h
  | cons c cs ih =>
    intro a b h
    simp only [splitArrow] at h
    by_cases hg : (startsWithArrow (c :: cs) && allDots ((c :: cs).drop 4)) = true
    · rw [if_pos hg] at h
      have hv := Option.some.inj h
      have h0 : a = ([] : List Char) := (congrArg Prod.fst hv).symm
      have h1 : b = (c :: cs).drop 4 := (congrArg Prod.snd hv).symm
      subst h0; subst h1
      rw [List.nil_append]
      exact startsWithArrow_eq (Bool.and_elim_left hg)
    · rw [if_neg hg] at h
      by_cases hd : isRegexDot c
      · rw [hd, if_pos rfl] at h
        obtain ⟨pr, hpr, hval⟩ := Option.map_eq_some'.mp h
        obtain ⟨A, B⟩ := pr
        have h0 : a = c :: A := (congrArg Prod.fst hval).symm
        have h1 : b = B := (congrArg Prod.snd hval).symm
        subst h0; subst h1
        rw [ih hpr]
        simp [List.append_assoc]
      · rw [Bool.not_eq_true] at hd
        rw [hd] at h
        simp at h

theorem replaceAux_length (sel : Bool) : ∀ (n : Nat) (cs : List Char),
    (replaceAux sel n cs).length ≤ cs.length := by
  intro n
  induction n with
  | zero => intro cs; simp [replaceAux]
  | succ n ih =>
    intro cs
    cases hm : firstBraceMatch cs with
    | none => simp [replaceAux, hm]
    | some q =>
      obtain ⟨p, g1, g2, r⟩ := q
      have hlen := firstBraceMatch_length hm
      have hr := ih r
      simp only [replaceAux, hm, List.length_append]
      cases sel <;> simp <;> omega

theorem replaceAux_length_lt (sel : Bool) (n : Nat) {cs : List Char}
    (h : (firstBraceMatch cs).isSome = true) :
    (replaceAux sel (n + 1) cs).length < cs.length := by
  obtain ⟨q, hm⟩ := Option.isSome_iff_exists.mp h
  obtain ⟨p, g1, g2, r⟩ := q
  have hlen := firstBraceMatch_length hm
  have hr := replaceAux_length sel n r
  simp only [replaceAux, hm, List.length_append]
  cases sel <;> simp <;> omega

theorem collapseAux_length : ∀ (n : Nat) (cs : List Char),
    (collapseAux n cs).length ≤ cs.length := by
  intro n
  induction n with
  | zero => intro cs; simp [collapseAux]
  | succ n ih =>
    intro cs
    match cs with
    | [] => simp [collapseAux]
    | [c] => simp [collapseAux]
    | c :: c2 :: rest =>
      simp only [collapseAux]
      by_cases h : c = '/' ∧ c2 = '/'
      · rw [if_pos h]
        have := ih rest
        simp only [List.length_cons]
        omega
      · rw [if_neg h]
        have := ih (c2 :: rest)
        simp only [List.length_cons] at *
        omega

theorem applyBraceReplace_length_lt {s : String}
    (h : (firstBraceMatch s.data).isSome = true) (sel : Bool) :
    (applyBraceReplace sel s).data.length < s.data.length := by
  have hdata : (applyBraceReplace sel s).data
      = collapseAux (replaceAux sel s.data.length s.data).length
          (replaceAux sel s.data.length s.data) := rfl
  rw [hdata]
  have h2 := collapseAux_length (replaceAux sel s.data.length s.data).length
    (replaceAux sel s.data.length s.data)
  cases hd : s.data with
  | nil => rw [hd] at h; simp [firstBraceMatch] at h
  | cons c cs =>
    have h1 : (replaceAux sel (cs.length + 1) (c :: cs)).length < (c :: cs).length :=
      replaceAux_length_lt sel cs.length (hd ▸ h)
    rw [hd] at h2
    simp only [List.length_cons] at h1 h2 ⊢
    omega

/-- The target path produced by the brace form is strictly shorter than the
annotated key, hence different from it. -/
theorem parseRename_brace_ne {file f t : String}
    (h : parseRename file = RenameParse.brace f t) : t ≠ file := by
  by_cases hm : (firstBraceMatch file.data).isSome = true
  · rw [parseRename, if_pos hm] at h
    injection h with h1 h2
    intro hc
    have hlt := applyBraceReplace_length_lt hm false
    rw [h2, hc] at hlt
    omega
  · rw [parseRename, if_neg hm] at h
    cases hs : splitArrow file.data with
    | some q => rw [hs] at h; exact RenameParse.noConfusion h
    | none => rw [hs] at h; exact RenameParse.noConfusion h

/-- The target path produced by the whole-path arrow form is a strict suffix
of the key, hence different from it. -/
theorem parseRename_arrow_ne {file f t : String}
    (h : parseRename file = RenameParse.arrow f t) : t ≠ file := by
  by_cases hm : (firstBraceMatch file.data).isSome = true
  · rw [parseRename, if_pos hm] at h
    exact RenameParse.noConfusion h
  · rw [parseRename, if_neg hm] at h
    cases hs : splitArrow file.data with
    | none => rw [hs] at h; exact RenameParse.noConfusion h
    | some q =>
      rw [hs] at h
      obtain ⟨a, b⟩ := q
      injection h with h1 h2
      intro hc
      have hd := splitArrow_eq hs
      have hb : t.data = b := by rw [← h2]
      have hlen : file.data.length = a.length + 4 + b.length := by
        rw [hd]
        simp [arrowChars, List.length_append]
        omega
      rw [hc] at hb
      rw [hb] at hlen
      omega

/-! ### Conservation through `processData` -/

theorem allEntries_move {t : FileData} {file tgt : String} {entries : List HistoryEntry}
    (hne : tgt ≠ file) (hl : lookupKey t file = some entries) :
    allEntries (eraseKey (setKey t tgt (lookupEntries t tgt ++ entries)) file)
      = allEntries t := by
  set X := setKey t tgt (lookupEntries t tgt ++ entries) with hX
  have h1 := allEntries_setKey t tgt (lookupEntries t tgt ++ entries)
  have h3 : lookupEntries X file = entries := by
    rw [hX, lookupEntries, lookup_setKey_ne _ _ (Ne.symm hne), hl]
    rfl
  have h2 := allEntries_eraseKey X file
  rw [h3] at h2
  have hXval : allEntries X = allEntries t + (entries : Multiset HistoryEntry) := by
    have hco : (((lookupEntries t tgt ++ entries : List HistoryEntry)) : Multiset HistoryEntry)
        = (lookupEntries t tgt : Multiset HistoryEntry) + (entries : Multiset HistoryEntry) :=
      (Multiset.coe_add _ _).symm
    rw [hco] at h1
    have h1' : allEntries X + (lookupEntries t tgt : Multiset HistoryEntry)
        = (allEntries t + (entries : Multiset HistoryEntry))
          + (lookupEntries t tgt : Multiset HistoryEntry) := by
      rw [h1]; abel
    exact add_right_cancel h1'
  rw [hXval] at h2
  exact add_right_cancel h2

theorem allEntries_extractStep (st : FileData × List (String × String)) (file : String) :
    allEntries (extractStep st file).1 = allEntries st.1 := by
  rw [extractStep]
  cases hl : lookupKey st.1 file with
  | none => rfl
  | some entries =>
    cases hp : parseRename file with
    | plain => rfl
    | brace f t => exact allEntries_move (parseRename_brace_ne hp) hl
    | arrow f t => exact allEntries_move (parseRename_arrow_ne hp) hl

theorem allEntries_extractFold (keys : List String) :
    ∀ st, allEntries (keys.foldl extractStep st).1 = allEntries st.1 := by
  induction keys with
  | nil => intro st; rfl
  | cons k ks ih => intro st; rw [List.foldl_cons, ih, allEntries_extractStep]

theorem allEntries_extractRenames (t : FileData) :
    allEntries (extractRenames t).1 = allEntries t :=
  allEntries_extractFold (t.map Prod.fst) (t, [])

theorem allEntries_passEdge (t : FileData) (e : String × String) :
    allEntries (passEdge t e).1 = allEntries t := by
  rw [passEdge]
  by_cases hg : (lookupEntries t e.1 = [] || lookupEntries t e.2 = []) = true
  · simp only [hg, if_true]
  · simp only [hg, if_false]
    by_cases heq : e.2 = e.1
    · simp only [heq, if_pos rfl, List.nil_append, setKey_setKey]
      have h1 := allEntries_setKey t e.1 (lookupEntries t e.1)
      exact add_right_cancel h1
    · simp only [if_neg heq]
      set X := setKey t e.1 [] with hX
      have h1 := allEntries_setKey t e.1 []
      have hXval : allEntries X + (lookupEntries t e.1 : Multiset HistoryEntry)
          = allEntries t := by
        rw [← hX] at h1
        simpa using h1
      have hlx : lookupEntries X e.2 = lookupEntries t e.2 := by
        rw [hX, lookupEntries, lookupEntries, lookup_setKey_ne _ _ heq]
      have h2 := allEntries_setKey X e.2 (lookupEntries t e.2 ++ lookupEntries t e.1)
      rw [hlx] at h2
      have hco : ((lookupEntries t e.2 ++ lookupEntries t e.1 : List HistoryEntry) :
          Multiset HistoryEntry)
          = (lookupEntries t e.2 : Multiset HistoryEntry)
            + (lookupEntries t e.1 : Multiset HistoryEntry) := (Multiset.coe_add _ _).symm
      rw [hco] at h2
      have h2' : allEntries (setKey X e.2 (lookupEntries t e.2 ++ lookupEntries t e.1))
            + (lookupEntries t e.2 : Multiset HistoryEntry)
          = (allEntries X + (lookupEntries t e.1 : Multiset HistoryEntry))
            + (lookupEntries t e.2 : Multiset HistoryEntry) := by
        rw [h2]; abel
      have := add_right_cancel h2'
      rw [hXval] at this
      exact this

theorem allEntries_passAll (es : List (String × String)) :
    ∀ acc : FileData × Bool, allEntries (es.foldl
      (fun acc e => ((passEdge acc.1 e).1, acc.2 || (passEdge acc.1 e).2)) acc).1
      = allEntries acc.1 := by
  induction es with
  | nil => intro acc; rfl
  | cons e es ih =>
    intro acc
    rw [List.foldl_cons, ih]
    exact allEntries_passEdge acc.1 e

theorem allEntries_passAll' (t : FileData) (es : List (String × String)) :
    allEntries (passAll t es).1 = allEntries t := by
  have h : passAll t es = es.foldl
      (fun acc e => ((passEdge acc.1 e).1, acc.2 || (passEdge acc.1 e).2)) (t, false) := rfl
  rw [h, allEntries_passAll]

theorem allEntries_loopPasses : ∀ (fuel : Nat) (t : FileData) (es : List (String × String)),
    allEntries (loopPasses fuel t es).1 = allEntries t := by
  intro fuel
  induction fuel with
  | zero => intro t es; rfl
  | succ n ih =>
    intro t es
    rw [loopPasses]
    by_cases hm : (passAll t es).2 = true
    · simp only [hm, if_true]
      rw [ih, allEntries_passAll']
    · simp only [hm, if_false]
      exact allEntries_passAll' t es

theorem allEntries_dropEmpty (t : FileData) : allEntries (dropEmpty t) = allEntries t := by
  induction t with
  | nil => rfl
  | cons p t ih =>
    have ih' : allEntries (List.filter (fun q => !q.2.isEmpty) t) = allEntries t := ih
    cases hEmp : p.2.isEmpty with
    | true =>
      have hp : p.2 = [] := List.isEmpty_iff.mp hEmp
      simp [dropEmpty, List.filter_cons, hEmp, hp, allEntries_cons, ih']
    | false =>
      simp [dropEmpty, List.filter_cons, hEmp, allEntries_cons, ih']

theorem allEntries_resolveEdges (fuel : Nat) (t : FileData) (es : List (String × String)) :
    allEntries (resolveEdges fuel t es).1 = allEntries t := by
  have h : (resolveEdges fuel t es).1 = dropEmpty (loopPasses fuel t es).1 := rfl
  rw [h, allEntries_dropEmpty, allEntries_loopPasses]

theorem allEntries_processData (fuel : Nat) (t : FileData) :
    allEntries (processData fuel t).1 = allEntries t := by
  have h : (processData fuel t).1
      = (resolveEdges fuel (extractRenames t).1 (extractRenames t).2.reverse).1 := rfl
  rw [h, allEntries_resolveEdges, allEntries_extractRenames]

/-! ### Evaluation lemmas for the fixpoint loop -/

theorem lookupEntries_setKey_self (t : FileData) (k : String) (v : List HistoryEntry) :
    lookupEntries (setKey t k v) k = v := by
  rw [lookupEntries, lookup_setKey_self]
  rfl

theorem lookupEntries_setKey_ne (t : FileData) {k k' : String} (v : List HistoryEntry)
    (h : k' ≠ k) : lookupEntries (setKey t k v) k' = lookupEntries t k' := by
  rw [lookupEntries, lookup_setKey_ne _ _ h]
  rfl

theorem passEdge_skip_left {t : FileData} {e : String × String}
    (h : lookupEntries t e.1 = []) : passEdge t e = (t, false) := by
  simp [passEdge, h]

theorem passEdge_skip_right {t : FileData} {e : String × String}
    (h : lookupEntries t e.2 = []) : passEdge t e = (t, false) := by
  simp [passEdge, h]

theorem passEdge_fire {t : FileData} {e : String × String}
    (h1 : lookupEntries t e.1 ≠ []) (h2 : lookupEntries t e.2 ≠ []) (hne : ¬(e.2 = e.1)) :
    passEdge t e
      = (setKey (setKey t e.1 []) e.2 (lookupEntries t e.2 ++ lookupEntries t e.1), true) := by
  simp [passEdge, h1, h2, hne]

theorem lookup_isSome_iff_mem {β : Type} (t : List (String × β)) (k : String) :
    (lookupKey t k).isSome = true ↔ k ∈ t.map Prod.fst := by
  induction t with
  | nil => simp [lookupKey]
  | cons p t ih =>
    by_cases h : p.1 = k
    · simp [lookupKey, h]
    · rw [lookupKey, if_neg h, List.map_cons]
      constructor
      · intro hs
        exact List.mem_cons_of_mem _ (ih.mp hs)
      · intro hm
        rcases List.mem_cons.mp hm with hm | hm
        · exact absurd hm.symm h
        · exact ih.mpr hm

theorem keys_setKey {β : Type} (t : List (String × β)) (k : String) (v : β) :
    (setKey t k v).map Prod.fst
      = if (lookupKey t k).isSome then t.map Prod.fst else t.map Prod.fst ++ [k] := by
  induction t with
  | nil => simp [setKey, lookupKey]
  | cons p t ih =>
    by_cases h : p.1 = k
    · simp [setKey, lookupKey, h]
    · simp only [setKey, lookupKey, h, if_false, List.map_cons, ih]
      by_cases hs : (lookupKey t k).isSome
      · simp [hs]
      · simp [hs]

theorem nodup_keys_setKey {β : Type} {t : List (String × β)}
    (hnd : (t.map Prod.fst).Nodup) (k : String) (v : β) :
    ((setKey t k v).map Prod.fst).Nodup := by
  rw [keys_setKey]
  by_cases hs : (lookupKey t k).isSome
  · simpa [hs]
  · have hk : k ∉ t.map Prod.fst := by
      intro hmem
      exact hs ((lookup_isSome_iff_mem t k).mpr hmem)
    simp [hs, List.nodup_append, hnd, hk]

theorem lookup_dropEmpty {t : FileData} (hnd : (t.map Prod.fst).Nodup) (k : String) :
    lookupKey (dropEmpty t) k
      = (lookupKey t k).bind (fun v => if v.isEmpty then none else some v) := by
  induction t with
  | nil => simp [dropEmpty, lookupKey]
  | cons p t ih =>
    have hnd' : (t.map Prod.fst).Nodup := (List.nodup_cons.mp hnd).2
    have hp : p.1 ∉ t.map Prod.fst := (List.nodup_cons.mp hnd).1
    have ihv := ih hnd'
    have hdrop : dropEmpty (p :: t)
        = if p.2.isEmpty then dropEmpty t else p :: dropEmpty t := by
      cases hEmp : p.2.isEmpty with
      | true => simp [dropEmpty, List.filter_cons, hEmp]
      | false => simp [dropEmpty, List.filter_cons, hEmp]
    by_cases h : p.1 = k
    · cases hEmp : p.2.isEmpty with
      | true =>
        have hnone : lookupKey t k = none := by
          cases hl : lookupKey t k with
          | none => rfl
          | some v =>
            exact absurd ((lookup_isSome_iff_mem t k).mp (by simp [hl]))
              (by rw [← h]; exact hp)
        have hp2 : p.2 = [] := List.isEmpty_iff.mp hEmp
        simp [hdrop, hEmp, ihv, hnone, lookupKey, h, hp2]
      | false =>
        have hp2 : p.2 ≠ [] := fun hc => by simp [hc] at hEmp
        simp [hdrop, hEmp, lookupKey, h, hp2]
    · cases hEmp : p.2.isEmpty with
      | true => simp [hdrop, hEmp, ihv, lookupKey, h]
      | false => simp [hdrop, hEmp, ihv, lookupKey, h]

theorem passAll_pair_skip {t : FileData} {X Y : String}
    (h : lookupEntries t X = [] ∨ lookupEntries t Y = []) :
    passAll t [(X, Y), (Y, X)] = (t, false) := by
  have h1 : passEdge t (X, Y) = (t, false) := by
    rcases h with h | h
    · exact passEdge_skip_left h
    · exact passEdge_skip_right h
  have h2 : passEdge t (Y, X) = (t, false) := by
    rcases h with h | h
    · exact passEdge_skip_right h
    · exact passEdge_skip_left h
  simp [passAll, List.foldl, h1, h2]

theorem passAll_pair_fire {t : FileData} {X Y : String} (hXY : X ≠ Y)
    (hX : lookupEntries t X ≠ []) (hY : lookupEntries t Y ≠ []) :
    passAll t [(X, Y), (Y, X)]
      = (setKey (setKey t X []) Y (lookupEntries t Y ++ lookupEntries t X), true) := by
  have h1 : passEdge t (X, Y)
      = (setKey (setKey t X []) Y (lookupEntries t Y ++ lookupEntries t X), true) :=
    passEdge_fire hX hY (fun hc => hXY hc.symm)
  have hX1 : lookupEntries (setKey (setKey t X []) Y
      (lookupEntries t Y ++ lookupEntries t X)) X = [] := by
    rw [lookupEntries_setKey_ne _ _ hXY, lookupEntries_setKey_self]
  have h2 : passEdge (setKey (setKey t X []) Y
      (lookupEntries t Y ++ lookupEntries t X)) (Y, X)
      = (setKey (setKey t X []) Y (lookupEntries t Y ++ lookupEntries t X), false) :=
    passEdge_skip_right hX1
  simp [passAll, List.foldl, h1, h2]

theorem loop_pair_skip {t : FileData} {X Y : String} (n : Nat)
    (h : lookupEntries t X = [] ∨ lookupEntries t Y = []) :
    loopPasses (n + 1) t [(X, Y), (Y, X)] = (t, true) := by
  simp [loopPasses, passAll_pair_skip h]

theorem loop_pair_fire {t : FileData} {X Y : String} (n : Nat) (hXY : X ≠ Y)
    (hX : lookupEntries t X ≠ []) (hY : lookupEntries t Y ≠ []) :
    loopPasses (n + 2) t [(X, Y), (Y, X)]
      = (setKey (setKey t X []) Y (lookupEntries t Y ++ lookupEntries t X), true) := by
  have hfire := passAll_pair_fire hXY hX hY
  have hX1 : lookupEntries (setKey (setKey t X []) Y
      (lookupEntries t Y ++ lookupEntries t X)) X = [] := by
    rw [lookupEntries_setKey_ne _ _ hXY, lookupEntries_setKey_self]
  have hskip := passAll_pair_skip (t := setKey (setKey t X []) Y
    (lookupEntries t Y ++ lookupEntries t X)) (X := X) (Y := Y) (Or.inl hX1)
  have hstep : n + 2 = (n + 1) + 1 := rfl
  rw [hstep]
  simp [loopPasses, hfire, hskip]

/-! ### Claim theorems for the rename resolver -/

/-- C1: Conservation — for every file-history table, the multiset of history
entries after `processData` equals the multiset before it (no entry is lost
or duplicated), and the same holds for the resolver run on any table with
any extracted edge list, for every pass bound. -/
theorem claim_C1_conservation :
    (∀ (fuel : Nat) (t : FileData), allEntries (processData fuel t).1 = allEntries t) ∧
      (∀ (fuel : Nat) (t : FileData) (es : List (String × String)),
        allEntries (resolveEdges fuel t es).1 = allEntries t) :=
  ⟨allEntries_processData, allEntries_resolveEdges⟩

/-- C4: Cycle safety — on a table with unique keys holding a non-empty
history under `A`, with the two cycle edges A→B and B→A (in either
processing order), the loop reaches a pass with zero relocations within
three passes, and afterwards the entries sit under exactly one of `A`, `B`:
either everything relevant is under `A` and `B` is empty, or everything is
under `B` and `A` is empty. -/
theorem claim_C4_cycle_safety (t : FileData) (A B : String) (la : List HistoryEntry)
    (es : List (String × String))
    (hnd : (t.map Prod.fst).Nodup) (hA : lookupKey t A = some la) (hla : la ≠ [])
    (hAB : A ≠ B)
    (hes : es = [(A, B), (B, A)] ∨ es = [(B, A), (A, B)]) :
    (resolveEdges 3 t es).2 = true ∧
      ((lookupEntries (resolveEdges 3 t es).1 A = la ++ lookupEntries t B ∧
        lookupEntries (resolveEdges 3 t es).1 B = []) ∨
       (lookupEntries (resolveEdges 3 t es).1 B = lookupEntries t B ++ la ∧
        lookupEntries (resolveEdges 3 t es).1 A = [])) := by
  have hlA : lookupEntries t A = la := by rw [lookupEntries, hA]; rfl
  have hlA' : lookupEntries t A ≠ [] := by rw [hlA]; exact hla
  by_cases hB : lookupEntries t B = []
  · -- the edge into the empty endpoint never fires, so nothing moves
    have hloop : loopPasses 3 t es = (t, true) := by
      rcases hes with rfl | rfl
      · exact loop_pair_skip 2 (Or.inr hB)
      · exact loop_pair_skip 2 (Or.inl hB)
    have hres : resolveEdges 3 t es = (dropEmpty t, true) := by
      show (dropEmpty (loopPasses 3 t es).1, (loopPasses 3 t es).2) = (dropEmpty t, true)
      rw [hloop]
    refine ⟨by simp [hres], Or.inl ⟨?_, ?_⟩⟩
    · simp only [hres]
      rw [hB, List.append_nil, lookupEntries, lookup_dropEmpty hnd, hA]
      simp [hla]
    · simp only [hres]
      rw [lookupEntries, lookup_dropEmpty hnd]
      cases hlB : lookupKey t B with
      | none => simp
      | some v =>
        have hv : v = [] := by rw [lookupEntries, hlB] at hB; exact hB
        simp [hv]
  · rcases hes with rfl | rfl
    · -- edge (A, B) fires first and empties A; (B, A) is then skipped forever
      have hloop : loopPasses 3 t [(A, B), (B, A)]
          = (setKey (setKey t A []) B (lookupEntries t B ++ lookupEntries t A), true) :=
        loop_pair_fire 1 hAB hlA' hB
      set t1 := setKey (setKey t A []) B (lookupEntries t B ++ lookupEntries t A) with ht1
      have hnd1 : (t1.map Prod.fst).Nodup :=
        nodup_keys_setKey (nodup_keys_setKey hnd A []) B _
      have hA1 : lookupKey t1 A = some [] := by
        rw [ht1, lookup_setKey_ne _ _ hAB, lookup_setKey_self]
      have hB1 : lookupKey t1 B = some (lookupEntries t B ++ lookupEntries t A) := by
        rw [ht1, lookup_setKey_self]
      have hres : resolveEdges 3 t [(A, B), (B, A)] = (dropEmpty t1, true) := by
        show (dropEmpty (loopPasses 3 t [(A, B), (B, A)]).1,
          (loopPasses 3 t [(A, B), (B, A)]).2) = (dropEmpty t1, true)
        rw [hloop]
      refine ⟨by simp [hres], Or.inr ⟨?_, ?_⟩⟩
      · simp only [hres]
        rw [lookupEntries, lookup_dropEmpty hnd1, hB1]
        have hne : lookupEntries t B ++ lookupEntries t A ≠ [] := by
          simp [hlA, hla]
        simp [hne, hlA, hla, hB]
      · simp only [hres]
        rw [lookupEntries, lookup_dropEmpty hnd1, hA1]
        simp
    · -- edge (B, A) fires first and empties B; (A, B) is then skipped forever
      have hloop : loopPasses 3 t [(B, A), (A, B)]
          = (setKey (setKey t B []) A (lookupEntries t A ++ lookupEntries t B), true) :=
        loop_pair_fire 1 (Ne.symm hAB) hB hlA'
      set t1 := setKey (setKey t B []) A (lookupEntries t A ++ lookupEntries t B) with ht1
      have hnd1 : (t1.map Prod.fst).Nodup :=
        nodup_keys_setKey (nodup_keys_setKey hnd B []) A _
      have hB1 : lookupKey t1 B = some [] := by
        rw [ht1, lookup_setKey_ne _ _ (Ne.symm hAB), lookup_setKey_self]
      have hA1 : lookupKey t1 A = some (lookupEntries t A ++ lookupEntries t B) := by
        rw [ht1, lookup_setKey_self]
      have hres : resolveEdges 3 t [(B, A), (A, B)] = (dropEmpty t1, true) := by
        show (dropEmpty (loopPasses 3 t [(B, A), (A, B)]).1,
          (loopPasses 3 t [(B, A), (A, B)]).2) = (dropEmpty t1, true)
        rw [hloop]
      refine ⟨by simp [hres], Or.inl ⟨?_, ?_⟩⟩
      · simp only [hres]
        rw [lookupEntries, lookup_dropEmpty hnd1, hA1]
        have hne : lookupEntries t A ++ lookupEntries t B ≠ [] := by
          simp [hlA, hla]
        simp [hne, hlA, hla, hB]
      · simp only [hres]
        rw [lookupEntries, lookup_dropEmpty hnd1, hB1]
        simp

/-- Witness for C4 at a concrete one-key table with the cycle edges. -/
theorem claim_C4_witness :
    ((cycleTable.map Prod.fst).Nodup ∧ lookupKey cycleTable "a" = some [entryA] ∧
      ([entryA] : List HistoryEntry) ≠ [] ∧ "a" ≠ "b") ∧
    ((resolveEdges 3 cycleTable [("a", "b"), ("b", "a")]).2 = true ∧
      ((lookupEntries (resolveEdges 3 cycleTable [("a", "b"), ("b", "a")]).1 "a"
          = [entryA] ++ lookupEntries cycleTable "b" ∧
        lookupEntries (resolveEdges 3 cycleTable [("a", "b"), ("b", "a")]).1 "b" = []) ∨
       (lookupEntries (resolveEdges 3 cycleTable [("a", "b"), ("b", "a")]).1 "b"
          = lookupEntries cycleTable "b" ++ [entryA] ∧
        lookupEntries (resolveEdges 3 cycleTable [("a", "b"), ("b", "a")]).1 "a" = []))) :=
  ⟨⟨by decide, by decide, by decide, by decide⟩,
    claim_C4_cycle_safety cycleTable "a" "b" [entryA] [("a", "b"), ("b", "a")]
      (by decide) (by decide) (by decide) (by decide) (Or.inl rfl)⟩

/-- C2 counterexample: `chainTable` contains the detected rename edges
(a, b) and (b, c) with history entries originally filed under `a`, but with
this discovery order — (a, b) pushed before (b, c), hence processed in the
reverse order — the loop moves b's history into c first, emptying b, and the
edge (a, b) can then never fire because its target is empty.  The entries
originally under `a` remain under `a` and `a` survives as a key, refuting
order-independent chain resolution. -/
theorem claim_C2_counterexample :
    (extractRenames chainTable).2 = [("a", "b"), ("b", "c")] ∧
      processData 5 chainTable = ([("a", [entryA]), ("c", [entryBC, entryAB])], true) ∧
      lookupKey (processData 5 chainTable).1 "a" = some [entryA] :=
  ⟨by decide, by decide, by decide⟩

/-- C2 amended: chain resolution does hold for the discovery order whose
reversal processes (A, B) before (B, C) — the order produced by a
newest-first commit log.  On a table holding non-empty histories under
distinct keys A, B and C (B and C hold at least the rename commits' own
entries), the loop files everything under the final target C, reaches a
zero-relocation pass within any bound of at least two passes, and the keys
A and B are dropped. -/
theorem claim_C2_amended (A B C : String) (la lb lc : List HistoryEntry) (fuel : Nat)
    (hAB : A ≠ B) (hAC : A ≠ C) (hBC : B ≠ C)
    (hla : la ≠ []) (hlb : lb ≠ []) (hlc : lc ≠ []) (hfuel : 2 ≤ fuel) :
    resolveEdges fuel [(A, la), (B, lb), (C, lc)] [(A, B), (B, C)]
      = ([(C, lc ++ (lb ++ la))], true) := by
  obtain ⟨n, rfl⟩ : ∃ n, fuel = n + 2 := ⟨fuel - 2, by omega⟩
  have hp1 : passEdge [(A, la), (B, lb), (C, lc)] (A, B)
      = ([(A, []), (B, lb ++ la), (C, lc)], true) := by
    simp [passEdge, lookupEntries, lookupKey, setKey, hAB, hAC, hBC, hla, hlb,
      Ne.symm hAB]
  have hp2 : passEdge [(A, []), (B, lb ++ la), (C, lc)] (B, C)
      = ([(A, []), (B, []), (C, lc ++ (lb ++ la))], true) := by
    simp [passEdge, lookupEntries, lookupKey, setKey, hAB, hAC, hBC, hla, hlb, hlc,
      Ne.symm hAB, Ne.symm hAC, Ne.symm hBC]
  have hpass1 : passAll [(A, la), (B, lb), (C, lc)] [(A, B), (B, C)]
      = ([(A, []), (B, []), (C, lc ++ (lb ++ la))], true) := by
    simp [passAll, hp1, hp2]
  have hq1 : passEdge [(A, []), (B, []), (C, lc ++ (lb ++ la))] (A, B)
      = ([(A, []), (B, []), (C, lc ++ (lb ++ la))], false) :=
    passEdge_skip_left (by simp [lookupEntries, lookupKey])
  have hq2 : passEdge [(A, []), (B, []), (C, lc ++ (lb ++ la))] (B, C)
      = ([(A, []), (B, []), (C, lc ++ (lb ++ la))], false) :=
    passEdge_skip_left (by simp [lookupEntries, lookupKey, hAB])
  have hpass2 : passAll [(A, []), (B, []), (C, lc ++ (lb ++ la))] [(A, B), (B, C)]
      = ([(A, []), (B, []), (C, lc ++ (lb ++ la))], false) := by
    simp [passAll, hq1, hq2]
  have hloop : loopPasses (n + 2) [(A, la), (B, lb), (C, lc)] [(A, B), (B, C)]
      = ([(A, []), (B, []), (C, lc ++ (lb ++ la))], true) := by
    have hstep : n + 2 = (n + 1) + 1 := rfl
    rw [hstep]
    simp [loopPasses, hpass1, hpass2]
  show (dropEmpty (loopPasses (n + 2) [(A, la), (B, lb), (C, lc)] [(A, B), (B, C)]).1,
      (loopPasses (n + 2) [(A, la), (B, lb), (C, lc)] [(A, B), (B, C)]).2)
    = ([(C, lc ++ (lb ++ la))], true)
  rw [hloop]
  have hCne : lc ++ (lb ++ la) ≠ [] := by simp [hlc]
  have hCfalse : (lc ++ (lb ++ la)).isEmpty = false := by
    cases h : (lc ++ (lb ++ la)).isEmpty with
    | false => rfl
    | true => exact absurd (List.isEmpty_iff.mp h) hCne
  simp [dropEmpty, List.filter, hCfalse]

/-- Witness for the amended C2 at concrete names and histories. -/
theorem claim_C2_amended_witness :
    (("a" : String) ≠ "b" ∧ ("a" : String) ≠ "c" ∧ ("b" : String) ≠ "c"
        ∧ ([entryA] : List HistoryEntry) ≠ [] ∧ (2 : Nat) ≤ 2) ∧
      resolveEdges 2 [("a", [entryA]), ("b", [entryAB]), ("c", [entryBC])]
          [("a", "b"), ("b", "c")]
        = ([("c", [entryBC] ++ ([entryAB] ++ [entryA]))], true) :=
  ⟨⟨by decide, by decide, by decide, by decide, by decide⟩,
    claim_C2_amended "a" "b" "c" [entryA] [entryAB] [entryBC] 2 (by decide) (by decide)
      (by decide) (by decide) (by decide) (by decide) (by decide)⟩

/-! ### What `processCommits` puts into the table -/

theorem allEntriesList_cons (p : String × List HistoryEntry) (t : FileData) :
    allEntriesList (p :: t) = p.2 ++ allEntriesList t := rfl

theorem mem_lookupEntries {t : FileData} {k : String} {e : HistoryEntry}
    (he : e ∈ lookupEntries t k) : e ∈ allEntriesList t := by
  induction t with
  | nil => simp [lookupEntries, lookupKey] at he
  | cons p t ih =>
    rw [allEntriesList_cons, List.mem_append]
    by_cases h : p.1 = k
    · rw [lookupEntries, lookupKey, if_pos h] at he
      exact Or.inl he
    · rw [lookupEntries, lookupKey, if_neg h] at he
      exact Or.inr (ih he)

theorem mem_allEntries_setKey {t : FileData} {k : String} {v : List HistoryEntry}
    {e : HistoryEntry} (he : e ∈ allEntriesList (setKey t k v)) :
    e ∈ allEntriesList t ∨ e ∈ v := by
  induction t with
  | nil =>
    rw [setKey, allEntriesList_cons] at he
    simp only [allEntriesList, List.map_nil, List.flatten_nil, List.append_nil] at he
    exact Or.inr he
  | cons p t ih =>
    by_cases h : p.1 = k
    · rw [setKey, if_pos h, allEntriesList_cons, List.mem_append] at he
      rcases he with he | he
      · exact Or.inr he
      · exact Or.inl (by rw [allEntriesList_cons, List.mem_append]; exact Or.inr he)
    · rw [setKey, if_neg h, allEntriesList_cons, List.mem_append] at he
      rcases he with he | he
      · exact Or.inl (by rw [allEntriesList_cons, List.mem_append]; exact Or.inl he)
      · rcases ih he with h2 | h2
        · exact Or.inl (by rw [allEntriesList_cons, List.mem_append]; exact Or.inr h2)
        · exact Or.inr h2

/-- Every entry produced by the `processCommits` folds either was already in
the accumulator or is a freshly pushed non-binary entry of one of the
commits. -/
theorem foldl_pushFileDiff_pres (P : HistoryEntry → Prop) (author date : String)
    (hnew : ∀ d : DiffFile, ¬(d.binary = true) → P ⟨author, date, d⟩) :
    ∀ (files : List DiffFile) (acc : FileData × List String),
      (∀ e ∈ allEntriesList acc.1, P e) →
      ∀ e ∈ allEntriesList (files.foldl (pushFileDiff author date) acc).1, P e := by
  intro files
  induction files with
  | nil => intro acc hacc; exact hacc
  | cons d files ih =>
    intro acc hacc
    rw [List.foldl_cons]
    apply ih
    intro e he
    by_cases hb : d.binary = true
    · rw [pushFileDiff, if_pos hb] at he
      exact hacc e he
    · rw [pushFileDiff, if_neg hb] at he
      rcases mem_allEntries_setKey he with h | h
      · exact hacc e h
      · rcases List.mem_append.mp h with h | h
        · exact hacc e (mem_lookupEntries h)
        · rw [List.mem_singleton.mp h]
          exact hnew d hb

theorem processCommits_pres (P : HistoryEntry → Prop) (commits : List Commit)
    (hnew : ∀ c ∈ commits, ∀ d : DiffFile, ¬(d.binary = true)
      → P ⟨c.author_name, c.date, d⟩) :
    ∀ e ∈ allEntriesList (processCommits commits).1, P e := by
  have main : ∀ (cs : List Commit), (∀ c ∈ cs, ∀ d : DiffFile, ¬(d.binary = true)
        → P ⟨c.author_name, c.date, d⟩) →
      ∀ (acc : FileData × List String), (∀ e ∈ allEntriesList acc.1, P e) →
      ∀ e ∈ allEntriesList (cs.foldl
        (fun acc c =>
          match c.diff with
          | none => acc
          | some files => files.foldl (pushFileDiff c.author_name c.date) acc) acc).1,
        P e := by
    intro cs
    induction cs with
    | nil => intro _ acc hacc; exact hacc
    | cons c cs ih =>
      intro hcs acc hacc
      rw [List.foldl_cons]
      apply ih (fun c' hc' => hcs c' (List.mem_cons_of_mem _ hc'))
      cases hd : c.diff with
      | none => simpa [hd] using hacc
      | some files =>
        simp only [hd]
        exact foldl_pushFileDiff_pres P c.author_name c.date
          (hcs c (List.mem_cons_self _ _)) files acc hacc
  exact main commits hnew ([], []) (by simp [allEntriesList])

/-! ### Accounting in `analyzeTopContributors` -/

theorem lookup_append_single_none {β : Type} {t : List (String × β)} {a : String} (v : β)
    (h : lookupKey t a = none) : lookupKey (t ++ [(a, v)]) a = some v := by
  induction t with
  | nil => simp [lookupKey]
  | cons p t ih =>
    rw [lookupKey] at h
    by_cases hp : p.1 = a
    · rw [if_pos hp] at h; exact Option.noConfusion h
    · rw [if_neg hp] at h
      rw [List.cons_append, lookupKey, if_neg hp]
      exact ih h

theorem lookup_append_single_ne {β : Type} (t : List (String × β)) {a b : String} (v : β)
    (h : ¬(b = a)) : lookupKey (t ++ [(b, v)]) a = lookupKey t a := by
  induction t with
  | nil => simp [lookupKey, h]
  | cons p t ih =>
    by_cases hp : p.1 = a
    · rw [List.cons_append, lookupKey, if_pos hp, lookupKey, if_pos hp]
    · rw [List.cons_append, lookupKey, if_neg hp, lookupKey, if_neg hp]
      exact ih

theorem totalsOf_bumpTotals_self (t : AuthorTable) (a : String) (f : Totals → Totals) :
    totalsOf (bumpTotals t a f) a = f (totalsOf t a) := by
  rw [bumpTotals]
  cases hl : lookupKey t a with
  | none =>
    rw [totalsOf, lookup_append_single_none _ hl, totalsOf, hl]
    rfl
  | some v =>
    rw [totalsOf, lookup_setKey_self, totalsOf, hl]
    rfl

theorem totalsOf_bumpTotals_ne (t : AuthorTable) {a b : String} (f : Totals → Totals)
    (h : ¬(a = b)) : totalsOf (bumpTotals t b f) a = totalsOf t a := by
  rw [bumpTotals]
  cases hl : lookupKey t b with
  | none => rw [totalsOf, lookup_append_single_ne _ _ (fun hc => h hc.symm)]; rfl
  | some v => rw [totalsOf, lookup_setKey_ne _ _ h]; rfl

/-- The insertions/deletions pass never touches the commit or file-touch
counters. -/
theorem totalsOf_addInsDel (fd : FileData) :
    ∀ (t : AuthorTable) (a : String),
      (totalsOf (addInsertionsDeletions fd t) a).commits = (totalsOf t a).commits ∧
      (totalsOf (addInsertionsDeletions fd t) a).totalFilesModified
        = (totalsOf t a).totalFilesModified := by
  have inner : ∀ (es : List HistoryEntry) (t : AuthorTable) (a : String),
      (totalsOf (es.foldl (fun t e =>
          bumpTotals t e.author (fun v =>
            { v with
              insertions := v.insertions + e.diff.insertions
              deletions := v.deletions + e.diff.deletions })) t) a).commits
        = (totalsOf t a).commits ∧
      (totalsOf (es.foldl (fun t e =>
          bumpTotals t e.author (fun v =>
            { v with
              insertions := v.insertions + e.diff.insertions
              deletions := v.deletions + e.diff.deletions })) t) a).totalFilesModified
        = (totalsOf t a).totalFilesModified := by
    intro es
    induction es with
    | nil => intro t a; exact ⟨rfl, rfl⟩
    | cons e es ih =>
      intro t a
      rw [List.foldl_cons]
      constructor
      · rw [(ih _ a).1]
        by_cases h : a = e.author
        · rw [← h, totalsOf_bumpTotals_self]
        · rw [totalsOf_bumpTotals_ne _ _ h]
      · rw [(ih _ a).2]
        by_cases h : a = e.author
        · rw [← h, totalsOf_bumpTotals_self]
        · rw [totalsOf_bumpTotals_ne _ _ h]
  intro t a
  rw [addInsertionsDeletions]
  induction fd generalizing t with
  | nil => exact ⟨rfl, rfl⟩
  | cons p fd ih =>
    rw [List.foldl_cons]
    refine ⟨?_, ?_⟩
    · rw [(ih _).1, (inner p.2 t a).1]
    · rw [(ih _).2, (inner p.2 t a).2]

/-- The raw-commit pass adds one commit and the raw file count (binary files
included) per commit of the author. -/
theorem totalsOf_addCommitCounts :
    ∀ (cs : List Commit) (t : AuthorTable) (a : String),
      (totalsOf (addCommitCounts cs t) a).totalFilesModified
        = (totalsOf t a).totalFilesModified
          + ((cs.filter (fun c => c.author_name = a)).map
              (fun c => (c.diff.map List.length).getD 0)).sum ∧
      (totalsOf (addCommitCounts cs t) a).commits
        = (totalsOf t a).commits + (cs.filter (fun c => c.author_name = a)).length := by
  intro cs
  induction cs with
  | nil => intro t a; simp [addCommitCounts]
  | cons c cs ih =>
    intro t a
    have hstep : addCommitCounts (c :: cs) t
        = addCommitCounts cs (bumpTotals t c.author_name (fun v =>
            { v with
              commits := v.commits + 1
              totalFilesModified := v.totalFilesModified
                + ((c.diff.map List.length).getD 0) })) := by
      rw [addCommitCounts, List.foldl_cons, addCommitCounts]
    rw [hstep]
    by_cases h : c.author_name = a
    · have hself : totalsOf (bumpTotals t c.author_name (fun v =>
          { v with
            commits := v.commits + 1
            totalFilesModified := v.totalFilesModified
              + ((c.diff.map List.length).getD 0) })) a
          = { totalsOf t a with
              commits := (totalsOf t a).commits + 1
              totalFilesModified := (totalsOf t a).totalFilesModified
                + ((c.diff.map List.length).getD 0) } := by
        rw [← h, totalsOf_bumpTotals_self]
      refine ⟨?_, ?_⟩
      · rw [(ih _ a).1, hself, List.filter_cons, if_pos (by simp [h])]
        simp [Nat.add_assoc, Nat.add_comm, Nat.add_left_comm]
      · rw [(ih _ a).2, hself, List.filter_cons, if_pos (by simp [h])]
        simp [Nat.add_assoc, Nat.add_comm, Nat.add_left_comm]
    · have hne : totalsOf (bumpTotals t c.author_name (fun v =>
          { v with
            commits := v.commits + 1
            totalFilesModified := v.totalFilesModified
              + ((c.diff.map List.length).getD 0) })) a = totalsOf t a :=
        totalsOf_bumpTotals_ne _ _ (fun hc => h hc.symm)
      refine ⟨?_, ?_⟩
      · rw [(ih _ a).1, hne, List.filter_cons, if_neg (by simp [h])]
      · rw [(ih _ a).2, hne, List.filter_cons, if_neg (by simp [h])]

/-- C3 counterexample: a commit whose only change is flagged binary still
contributes to the contributor ranking — its author is ranked with commit
count 1 and totalFilesModified 1 (the raw `diff.files.length`, which counts
the binary file), even though the file-history table is empty.  The binary
change is therefore not excluded from the files-touched-per-commit field of
the ranking, contrary to the claim. -/
theorem claim_C3_counterexample :
    (processCommits [binaryCommit]).1 = [] ∧
      analyzeTopContributors (processData 5 (processCommits [binaryCommit]).1).1
          [binaryCommit] 5
        = [("x", ⟨0, 0, 1, 1⟩)] :=
  ⟨by decide, by decide⟩

/-- C3 amended: binary changes are excluded from the file-history table
(hence from the developer weight table, the similarity scores and the
insertions/deletions sums, which are all computed from it), but the
ranking's commit count and files-touched count are taken from the raw
commit records: `totalFilesModified` is exactly the sum of the raw
`diff.files.length` over the author's commits, binary files included. -/
theorem claim_C3_amended :
    (∀ (commits : List Commit), ∀ e ∈ allEntriesList (processCommits commits).1,
        e.diff.binary = false) ∧
      (∀ (fd : FileData) (commits : List Commit) (a : String),
        (totalsOf (buildAuthorChanges fd commits) a).totalFilesModified
          = ((commits.filter (fun c => c.author_name = a)).map
              (fun c => (c.diff.map List.length).getD 0)).sum) := by
  constructor
  · intro commits
    apply processCommits_pres (fun e => e.diff.binary = false) commits
    intro c _ d hd
    exact Bool.of_not_eq_true hd
  · intro fd commits a
    have h1 := (totalsOf_addCommitCounts commits (addInsertionsDeletions fd []) a).1
    have h2 := (totalsOf_addInsDel fd [] a).2
    have h0 : (totalsOf ([] : AuthorTable) a).totalFilesModified = 0 := rfl
    rw [buildAuthorChanges, h1, h2, h0, Nat.zero_add]

/-- Witness for the amended C3 at a concrete commit list: the single pushed
entry of a plain commit is non-binary. -/
theorem claim_C3_amended_witness :
    (⟨"x", "d1", sampleDiff "f" 5 3 2⟩ : HistoryEntry)
        ∈ allEntriesList (processCommits [plainCommit]).1 ∧
      (⟨"x", "d1", sampleDiff "f" 5 3 2⟩ : HistoryEntry).diff.binary = false :=
  ⟨by decide, claim_C3_amended.1 [plainCommit] _ (by decide)⟩

/-! ### The similarity analyzer -/

/-- What belongs to the emitted pair list: exactly the ordered author pairs
over the activity floor whose similarity strictly exceeds the threshold,
carrying the floor of similarity times one hundred. -/
theorem mem_analyzeSimilarities {dd : DevData} {authors : List String} {th : ℚ}
    {a b : String} {q : ℤ} :
    (a, b, q) ∈ analyzeSimilarities dd authors th ↔
      a ∈ authors ∧ b ∈ authors ∧ charListLt a.data b.data = true ∧
        ¬(totalWeight dd a + totalWeight dd b < 100) ∧
        th < similarity dd a b ∧ q = Int.floor (similarity dd a b * 100) := by
  constructor
  · intro hx
    obtain ⟨a', ha', hmem⟩ := List.mem_flatMap.mp hx
    obtain ⟨b', hb', hfb⟩ := List.mem_filterMap.mp hmem
    have hb'2 := List.mem_filter.mp hb'
    have hlt : charListLt a'.data b'.data = true := hb'2.2
    by_cases h100 : totalWeight dd a' + totalWeight dd b' < 100
    · rw [if_pos h100] at hfb
      exact absurd hfb (by simp)
    · rw [if_neg h100] at hfb
      by_cases hth : th < similarity dd a' b'
      · rw [if_pos hth] at hfb
        have hv := Option.some.inj hfb
        have ha2 : a = a' := (congrArg Prod.fst hv).symm
        have hb2 : b = b' := (congrArg (fun x => x.2.1) hv).symm
        have hq2 : q = Int.floor (similarity dd a' b' * 100) := by
          have := (congrArg (fun x => x.2.2) hv).symm
          simpa using this
        subst ha2; subst hb2
        exact ⟨ha', hb'2.1, hlt, h100, hth, hq2⟩
      · rw [if_neg hth] at hfb
        exact absurd hfb (by simp)
  · rintro ⟨ha, hb, hlt, h100, hth, hq⟩
    apply List.mem_flatMap.mpr
    refine ⟨a, ha, ?_⟩
    apply List.mem_filterMap.mpr
    refine ⟨b, List.mem_filter.mpr ⟨hb, hlt⟩, ?_⟩
    rw [if_neg h100, if_pos hth, hq]

theorem foldl_shared_eq (B : List (String × Nat)) :
    ∀ (l : List (String × Nat)) (init : Nat),
      (l.foldl (fun s p =>
          let bw := weightOn B p.1
          if bw = 0 then s else s + (p.2 + bw)) init)
        = init + ((l.filter (fun p => !decide (weightOn B p.1 = 0))).map
            (fun p => p.2 + weightOn B p.1)).sum := by
  intro l
  induction l with
  | nil => intro init; simp
  | cons p l ih =>
    intro init
    rw [List.foldl_cons]
    by_cases h : weightOn B p.1 = 0
    · simp [h, ih, List.filter_cons]
    · simp [h, ih, List.filter_cons]
      omega

theorem sharedWeight_eq (dd : DevData) (a b : String) :
    sharedWeight dd a b
      = (((devMap dd a).filter
            (fun p => !decide (weightOn (devMap dd b) p.1 = 0))).map
          (fun p => p.2 + weightOn (devMap dd b) p.1)).sum := by
  rw [sharedWeight, foldl_shared_eq, Nat.zero_add]

theorem lookup_mem {β : Type} {m : List (String × β)} {k : String} {v : β}
    (h : lookupKey m k = some v) : (k, v) ∈ m := by
  induction m with
  | nil => simp [lookupKey] at h
  | cons q m ih =>
    by_cases hq : q.1 = k
    · rw [lookupKey, if_pos hq] at h
      have : (k, v) = q := by
        rw [← hq, ← Option.some.inj h]
      rw [this]
      exact List.mem_cons_self _ _
    · rw [lookupKey, if_neg hq] at h
      exact List.mem_cons_of_mem _ (ih h)

theorem weightOn_ne_iff {m : List (String × Nat)} (hp : ∀ p ∈ m, p.2 ≠ 0) (f : String) :
    weightOn m f ≠ 0 ↔ f ∈ m.map Prod.fst := by
  constructor
  · intro h
    apply (lookup_isSome_iff_mem m f).mp
    cases hl : lookupKey m f with
    | none => rw [weightOn, hl] at h; simp at h
    | some v => simp
  · intro h
    obtain ⟨v, hv⟩ := Option.isSome_iff_exists.mp ((lookup_isSome_iff_mem m f).mpr h)
    rw [weightOn, hv]
    exact hp (f, v) (lookup_mem hv)

theorem weightOn_eq_of_mem {m : List (String × Nat)} (h : (m.map Prod.fst).Nodup)
    {p : String × Nat} (hp : p ∈ m) : weightOn m p.1 = p.2 := by
  induction m with
  | nil => simp at hp
  | cons q m ih =>
    have hq : q.1 ∉ m.map Prod.fst := (List.nodup_cons.mp h).1
    rcases List.mem_cons.mp hp with rfl | hp'
    · rw [weightOn, lookupKey, if_pos rfl]
      rfl
    · by_cases hqp : q.1 = p.1
      · exact absurd (by rw [hqp]; exact List.mem_map.mpr ⟨p, hp', rfl⟩) hq
      · rw [weightOn, lookupKey, if_neg hqp]
        exact ih (List.nodup_cons.mp h).2 hp'

theorem sharedWeight_keys (dd : DevData) (a b : String)
    (hA : ((devMap dd a).map Prod.fst).Nodup) :
    sharedWeight dd a b
      = ((((devMap dd a).map Prod.fst).filter
            (fun f => !decide (weightOn (devMap dd b) f = 0))).map
          (fun f => weightOn (devMap dd a) f + weightOn (devMap dd b) f)).sum := by
  rw [sharedWeight_eq]
  have hfil : (((devMap dd a).map Prod.fst).filter
        (fun f => !decide (weightOn (devMap dd b) f = 0)))
      = ((devMap dd a).filter
          (fun p => !decide (weightOn (devMap dd b) p.1 = 0))).map Prod.fst := by
    rw [List.filter_map Prod.fst]
    rfl
  rw [hfil, List.map_map]
  apply congrArg List.sum
  apply List.map_congr_left
  intro p hp
  have hp' : p ∈ devMap dd a := (List.mem_filter.mp hp).1
  have := weightOn_eq_of_mem hA hp'
  simp [Function.comp, this]

theorem sharedWeight_comm (dd : DevData) (a b : String)
    (hA : ((devMap dd a).map Prod.fst).Nodup) (hB : ((devMap dd b).map Prod.fst).Nodup)
    (hpA : ∀ p ∈ devMap dd a, p.2 ≠ 0) (hpB : ∀ p ∈ devMap dd b, p.2 ≠ 0) :
    sharedWeight dd a b = sharedWeight dd b a := by
  rw [sharedWeight_keys dd a b hA, sharedWeight_keys dd b a hB]
  have hperm : List.Perm
      (((devMap dd a).map Prod.fst).filter
        (fun f => !decide (weightOn (devMap dd b) f = 0)))
      (((devMap dd b).map Prod.fst).filter
        (fun f => !decide (weightOn (devMap dd a) f = 0))) := by
    apply (List.perm_ext_iff_of_nodup (hA.filter _) (hB.filter _)).mpr
    intro f
    constructor
    · intro hf
      have h1 := List.mem_filter.mp hf
      have h2 : weightOn (devMap dd b) f ≠ 0 := by simpa using h1.2
      have h3 : weightOn (devMap dd a) f ≠ 0 := (weightOn_ne_iff hpA f).mpr h1.1
      exact List.mem_filter.mpr ⟨(weightOn_ne_iff hpB f).mp h2, by simpa using h3⟩
    · intro hf
      have h1 := List.mem_filter.mp hf
      have h2 : weightOn (devMap dd a) f ≠ 0 := by simpa using h1.2
      have h3 : weightOn (devMap dd b) f ≠ 0 := (weightOn_ne_iff hpB f).mpr h1.1
      exact List.mem_filter.mpr ⟨(weightOn_ne_iff hpA f).mp h2, by simpa using h3⟩
  calc ((((devMap dd a).map Prod.fst).filter
          (fun f => !decide (weightOn (devMap dd b) f = 0))).map
        (fun f => weightOn (devMap dd a) f + weightOn (devMap dd b) f)).sum
      = ((((devMap dd b).map Prod.fst).filter
          (fun f => !decide (weightOn (devMap dd a) f = 0))).map
        (fun f => weightOn (devMap dd a) f + weightOn (devMap dd b) f)).sum :=
        (hperm.map _).sum_eq
    _ = ((((devMap dd b).map Prod.fst).filter
          (fun f => !decide (weightOn (devMap dd a) f = 0))).map
        (fun f => weightOn (devMap dd b) f + weightOn (devMap dd a) f)).sum := by
        apply congrArg List.sum
        apply List.map_congr_left
        intro f _
        rw [Nat.add_comm]

theorem devMap_setKey_self (dd : DevData) (k : String) (m : List (String × Nat)) :
    devMap (setKey dd k m) k = m := by
  rw [devMap, lookup_setKey_self]
  rfl

theorem devMap_setKey_ne (dd : DevData) {k k' : String} (m : List (String × Nat))
    (h : k' ≠ k) : devMap (setKey dd k m) k' = devMap dd k' := by
  rw [devMap, lookup_setKey_ne _ _ h]
  rfl

theorem mem_setKey {β : Type} {m : List (String × β)} {k : String} {v : β} {p : String × β}
    (hp : p ∈ setKey m k v) : p ∈ m ∨ p = (k, v) := by
  induction m with
  | nil =>
    rw [setKey] at hp
    exact Or.inr (List.mem_singleton.mp hp)
  | cons q m ih =>
    by_cases h : q.1 = k
    · rw [setKey, if_pos h] at hp
      rcases List.mem_cons.mp hp with h1 | h1
      · exact Or.inr h1
      · exact Or.inl (List.mem_cons_of_mem _ h1)
    · rw [setKey, if_neg h] at hp
      rcases List.mem_cons.mp hp with h1 | h1
      · exact Or.inl (by rw [h1]; exact List.mem_cons_self _ _)
      · rcases ih h1 with h2 | h2
        · exact Or.inl (List.mem_cons_of_mem _ h2)
        · exact Or.inr h2

/-- The aggregated weight table has unique file keys per author and stores
only non-zero weights (zero-weight commits are skipped and every added
weight is positive). -/
theorem buildDevData_ok (fd : FileData) (authors : List String) (a : String) :
    ((devMap (buildDevData fd authors) a).map Prod.fst).Nodup ∧
      ∀ p ∈ devMap (buildDevData fd authors) a, p.2 ≠ 0 := by
  let inv : DevData → Prop := fun dd =>
    ∀ x : String, ((devMap dd x).map Prod.fst).Nodup ∧ ∀ p ∈ devMap dd x, p.2 ≠ 0
  have hstep : ∀ (f : String) (dd : DevData) (e : HistoryEntry),
      inv dd → inv (addWeight f dd e) := by
    intro f dd e hdd x
    rw [addWeight]
    by_cases hc : e.diff.changes = 0
    · rw [if_pos hc]
      exact hdd x
    · rw [if_neg hc]
      by_cases hx : x = e.author
      · rw [hx, devMap_setKey_self]
        constructor
        · exact nodup_keys_setKey (hdd e.author).1 f _
        · intro p hp
          rcases mem_setKey hp with h1 | h1
          · exact (hdd e.author).2 p h1
          · rw [h1]
            simp
            omega
      · rw [devMap_setKey_ne _ _ hx]
        exact hdd x
  have hentries : ∀ (f : String) (es : List HistoryEntry) (dd : DevData),
      inv dd → inv (es.foldl (addWeight f) dd) := by
    intro f es
    induction es with
    | nil => intro dd h; exact h
    | cons e es ih =>
      intro dd h
      rw [List.foldl_cons]
      exact ih _ (hstep f dd e h)
  have hfiles : ∀ (l : FileData) (dd : DevData),
      inv dd → inv (l.foldl (fun dd p => p.2.foldl (addWeight p.1) dd) dd) := by
    intro l
    induction l with
    | nil => intro dd h; exact h
    | cons p l ih =>
      intro dd h
      rw [List.foldl_cons]
      exact ih _ (hentries p.1 p.2 dd h)
  have hinit : ∀ (l : List String) (dd : DevData),
      inv dd → inv (l.foldl (fun dd a => setKey dd a []) dd) := by
    intro l
    induction l with
    | nil => intro dd h; exact h
    | cons c l ih =>
      intro dd h
      rw [List.foldl_cons]
      apply ih
      intro x
      by_cases hx : x = c
      · rw [hx, devMap_setKey_self]
        exact ⟨List.nodup_nil, by simp⟩
      · rw [devMap_setKey_ne _ _ hx]
        exact h x
  have hnil : inv [] := by
    intro x
    exact ⟨List.nodup_nil, by simp [devMap, lookupKey]⟩
  exact hfiles fd _ (hinit authors [] hnil) a

/-- C5: Similarity symmetry — over any developer weight table built by the
aggregator, the similarity computed for (a, b) equals the similarity
computed for (b, a): the shared-weight sums range over the same file set
and add the same two weights, and the combined weight is commutative. -/
theorem claim_C5_similarity_symmetry (fd : FileData) (authors : List String)
    (a b : String) :
    similarity (buildDevData fd authors) a b
      = similarity (buildDevData fd authors) b a := by
  have hoka := buildDevData_ok fd authors a
  have hokb := buildDevData_ok fd authors b
  rw [similarity, similarity,
    sharedWeight_comm (buildDevData fd authors) a b hoka.1 hokb.1 hoka.2 hokb.2,
    Nat.add_comm]

/-- C6: Threshold monotonicity — raising the threshold never adds an emitted
pair: everything emitted at the higher threshold is emitted at the lower
one. -/
theorem claim_C6_threshold_monotonicity (dd : DevData) (authors : List String)
    (t1 t2 : ℚ) (hth : t1 ≤ t2) :
    ∀ p ∈ analyzeSimilarities dd authors t2, p ∈ analyzeSimilarities dd authors t1 := by
  intro p hp
  obtain ⟨a, b, q⟩ := p
  rw [mem_analyzeSimilarities] at hp ⊢
  exact ⟨hp.1, hp.2.1, hp.2.2.1, hp.2.2.2.1,
    lt_of_le_of_lt hth hp.2.2.2.2.1, hp.2.2.2.2.2⟩

/-- Example 2 of the spec: with weight 60 each on the one shared file, the
similarity of the pair is exactly 1. -/
theorem bigPairTable_sim_eq :
    similarity (buildDevData bigPairTable ["x", "y"]) "x" "y" = 1 := by
  have h1 : sharedWeight (buildDevData bigPairTable ["x", "y"]) "x" "y" = 120 := by decide
  have h2 : totalWeight (buildDevData bigPairTable ["x", "y"]) "x" = 60 := by decide
  have h3 : totalWeight (buildDevData bigPairTable ["x", "y"]) "y" = 60 := by decide
  rw [similarity, h1, h2, h3]
  norm_num

/-- The Example 2 pair is emitted at every threshold below 1, rendered as
100 percent. -/
theorem bigPairTable_mem (th : ℚ) (h : th < 1) :
    ("x", "y", (100 : ℤ)) ∈ analyzeSimilarities
        (buildDevData bigPairTable ["x", "y"]) ["x", "y"] th := by
  apply mem_analyzeSimilarities.mpr
  refine ⟨by decide, by decide, by decide, by decide, ?_, ?_⟩
  · rw [bigPairTable_sim_eq]
    exact h
  · rw [bigPairTable_sim_eq]
    norm_num

/-- Witness for C6: the full-similarity pair of Example 2 is emitted at
threshold 6/10 and remains emitted at the lower threshold 1/2. -/
theorem claim_C6_witness :
    ((1 : ℚ)/2 ≤ 6/10) ∧
      ("x", "y", (100 : ℤ)) ∈ analyzeSimilarities
          (buildDevData bigPairTable ["x", "y"]) ["x", "y"] (6/10) ∧
      ("x", "y", (100 : ℤ)) ∈ analyzeSimilarities
          (buildDevData bigPairTable ["x", "y"]) ["x", "y"] (1/2) :=
  ⟨by norm_num, bigPairTable_mem (6/10) (by norm_num),
    claim_C6_threshold_monotonicity (buildDevData bigPairTable ["x", "y"]) ["x", "y"]
      (1/2) (6/10) (by norm_num) ("x", "y", (100 : ℤ))
      (bigPairTable_mem (6/10) (by norm_num))⟩

/-- C7: Activity floor — a pair whose combined total weight is strictly
below 100 is never emitted, in either component order, whatever the
threshold. -/
theorem claim_C7_activity_floor (dd : DevData) (authors : List String) (th : ℚ)
    (a b : String) (q : ℤ) (h : totalWeight dd a + totalWeight dd b < 100) :
    (a, b, q) ∉ analyzeSimilarities dd authors th ∧
      (b, a, q) ∉ analyzeSimilarities dd authors th := by
  constructor
  · intro hmem
    exact absurd h (mem_analyzeSimilarities.mp hmem).2.2.2.1
  · intro hmem
    have := (mem_analyzeSimilarities.mp hmem).2.2.2.1
    rw [Nat.add_comm] at this
    exact absurd h this

/-- Witness for C7 at Example 1: combined weight 20 is below the floor, so
the pair is excluded. -/
theorem claim_C7_witness :
    (totalWeight (buildDevData smallPairTable ["x", "y"]) "x"
        + totalWeight (buildDevData smallPairTable ["x", "y"]) "y" < 100) ∧
      ("x", "y", (100 : ℤ)) ∉ analyzeSimilarities
          (buildDevData smallPairTable ["x", "y"]) ["x", "y"] (6/10) ∧
      ("y", "x", (100 : ℤ)) ∉ analyzeSimilarities
          (buildDevData smallPairTable ["x", "y"]) ["x", "y"] (6/10) :=
  ⟨by decide,
    (claim_C7_activity_floor (buildDevData smallPairTable ["x", "y"]) ["x", "y"] (6/10)
      "x" "y" 100 (by decide)).1,
    (claim_C7_activity_floor (buildDevData smallPairTable ["x", "y"]) ["x", "y"] (6/10)
      "x" "y" 100 (by decide)).2⟩

/-- C8: Emission and rendering — a pair over the activity floor (taken in
the a < b iteration order) is emitted exactly when its similarity strictly
exceeds the threshold, and any emitted percentage is the integer floor of
similarity times 100. -/
theorem claim_C8_emission (dd : DevData) (authors : List String) (th : ℚ) (a b : String)
    (ha : a ∈ authors) (hb : b ∈ authors) (hab : charListLt a.data b.data = true)
    (hfloor : ¬(totalWeight dd a + totalWeight dd b < 100)) :
    ((a, b, Int.floor (similarity dd a b * 100)) ∈ analyzeSimilarities dd authors th
        ↔ th < similarity dd a b) ∧
      ∀ q : ℤ, (a, b, q) ∈ analyzeSimilarities dd authors th
        → q = Int.floor (similarity dd a b * 100) := by
  constructor
  · constructor
    · intro hmem
      exact (mem_analyzeSimilarities.mp hmem).2.2.2.2.1
    · intro hth
      exact mem_analyzeSimilarities.mpr ⟨ha, hb, hab, hfloor, hth, rfl⟩
  · intro q hmem
    exact (mem_analyzeSimilarities.mp hmem).2.2.2.2.2

/-- Witness for C8 at Example 2: similarity 1 exceeds threshold 6/10 and the
pair is rendered as 100 percent. -/
theorem claim_C8_witness :
    (("x" : String) ∈ (["x", "y"] : List String)
        ∧ ("y" : String) ∈ (["x", "y"] : List String)
        ∧ charListLt ("x" : String).data ("y" : String).data = true
        ∧ ¬(totalWeight (buildDevData bigPairTable ["x", "y"]) "x"
            + totalWeight (buildDevData bigPairTable ["x", "y"]) "y" < 100)) ∧
      ("x", "y", (100 : ℤ)) ∈ analyzeSimilarities
        (buildDevData bigPairTable ["x", "y"]) ["x", "y"] (6/10) := by
  refine ⟨⟨by decide, by decide, by decide, by decide⟩, ?_⟩
  have h := (claim_C8_emission (buildDevData bigPairTable ["x", "y"]) ["x", "y"] (6/10)
    "x" "y" (by decide) (by decide) (by decide) (by decide)).1.mpr
    (by rw [bigPairTable_sim_eq]; norm_num)
  have hfl : Int.floor (similarity (buildDevData bigPairTable ["x", "y"]) "x" "y" * 100)
      = (100 : ℤ) := by
    rw [bigPairTable_sim_eq]
    norm_num
  exact hfl ▸ h

/-! ### The stable descending sort of `analyzeTopContributors` -/

theorem mem_insertDesc (t : AuthorTable) (x : String) :
    ∀ (l : List String) (y : String), y ∈ insertDesc t x l ↔ y = x ∨ y ∈ l := by
  intro l
  induction l with
  | nil => intro y; simp [insertDesc]
  | cons z l ih =>
    intro y
    rw [insertDesc]
    by_cases h : insertionsOf t x < insertionsOf t z
    · rw [if_pos h]
      rw [List.mem_cons, ih y, List.mem_cons]
      tauto
    · rw [if_neg h]
      simp [List.mem_cons]

theorem perm_insertDesc (t : AuthorTable) (x : String) :
    ∀ (l : List String), List.Perm (insertDesc t x l) (x :: l) := by
  intro l
  induction l with
  | nil => simp [insertDesc]
  | cons z l ih =>
    rw [insertDesc]
    by_cases h : insertionsOf t x < insertionsOf t z
    · rw [if_pos h]
      exact (ih.cons z).trans (List.Perm.swap x z l)
    · rw [if_neg h]

theorem perm_sortDesc (t : AuthorTable) :
    ∀ (l : List String), List.Perm (sortDesc t l) l := by
  intro l
  induction l with
  | nil => simp [sortDesc]
  | cons x l ih =>
    rw [sortDesc]
    exact (perm_insertDesc t x (sortDesc t l)).trans (ih.cons x)

/-- Stable insertion: inserting an author that was seen earlier than every
resident keeps the list sorted by insertions descending with earlier-seen
authors ahead on ties. -/
theorem pairwise_insertDesc (t : AuthorTable) (I : String → Nat) (x : String) :
    ∀ (ys : List String),
      List.Pairwise (fun a b => insertionsOf t b < insertionsOf t a ∨
        (insertionsOf t a = insertionsOf t b ∧ I a < I b)) ys →
      (∀ y ∈ ys, I x < I y) →
      List.Pairwise (fun a b => insertionsOf t b < insertionsOf t a ∨
        (insertionsOf t a = insertionsOf t b ∧ I a < I b)) (insertDesc t x ys) := by
  intro ys
  induction ys with
  | nil => intro _ _; simp [insertDesc]
  | cons y ys ih =>
    intro hp hI
    have hyp := List.pairwise_cons.mp hp
    rw [insertDesc]
    by_cases hc : insertionsOf t x < insertionsOf t y
    · rw [if_pos hc]
      apply List.pairwise_cons.mpr
      constructor
      · intro z hz
        rcases (mem_insertDesc t x ys z).mp hz with rfl | hz
        · exact Or.inl hc
        · exact hyp.1 z hz
      · exact ih hyp.2 (fun y hy => hI y (List.mem_cons_of_mem _ hy))
    · rw [if_neg hc]
      have hyx : insertionsOf t y ≤ insertionsOf t x := Nat.le_of_not_lt hc
      apply List.pairwise_cons.mpr
      constructor
      · intro z hz
        rcases List.mem_cons.mp hz with rfl | hz
        · rcases Nat.lt_or_ge (insertionsOf t z) (insertionsOf t x) with h1 | h1
          · exact Or.inl h1
          · exact Or.inr ⟨Nat.le_antisymm h1 hyx, hI z (List.mem_cons_self _ _)⟩
        · rcases hyp.1 z hz with h1 | h1
          · exact Or.inl (Nat.lt_of_lt_of_le h1 hyx)
          · rcases Nat.lt_or_ge (insertionsOf t z) (insertionsOf t x) with h2 | h2
            · exact Or.inl h2
            · refine Or.inr ⟨?_, hI z (List.mem_cons_of_mem _ hz)⟩
              omega
      · exact hp

theorem pairwise_sortDesc (t : AuthorTable) (I : String → Nat) :
    ∀ (l : List String),
      List.Pairwise (fun a b => I a < I b) l →
      List.Pairwise (fun a b => insertionsOf t b < insertionsOf t a ∨
        (insertionsOf t a = insertionsOf t b ∧ I a < I b)) (sortDesc t l) := by
  intro l
  induction l with
  | nil => intro _; simp [sortDesc]
  | cons x l ih =>
    intro hI
    have hIc := List.pairwise_cons.mp hI
    rw [sortDesc]
    apply pairwise_insertDesc
    · exact ih hIc.2
    · intro y hy
      exact hIc.1 y ((perm_sortDesc t l).mem_iff.mp hy)

/-- A list without duplicates is strictly increasing in its own index
function. -/
theorem pairwise_indexOf_lt {l : List String} (h : l.Nodup) :
    List.Pairwise (fun a b => l.indexOf a < l.indexOf b) l := by
  induction l with
  | nil => simp
  | cons x xs ih =>
    have hx : x ∉ xs := (List.nodup_cons.mp h).1
    have hxs : xs.Nodup := (List.nodup_cons.mp h).2
    apply List.pairwise_cons.mpr
    constructor
    · intro b hb
      have hbx : ¬(b = x) := fun hc => hx (hc ▸ hb)
      rw [List.indexOf_cons_self, List.indexOf_cons_ne _ (fun hc => hbx hc.symm)]
      exact Nat.succ_pos _
    · apply (ih hxs).imp_of_mem
      intro a b ha hb hab
      have hax : ¬(a = x) := fun hc => hx (hc ▸ ha)
      have hbx : ¬(b = x) := fun hc => hx (hc ▸ hb)
      rw [List.indexOf_cons_ne _ (fun hc => hax hc.symm),
        List.indexOf_cons_ne _ (fun hc => hbx hc.symm)]
      omega

theorem keys_bumpTotals_nodup {t : AuthorTable} (hnd : (t.map Prod.fst).Nodup)
    (a : String) (f : Totals → Totals) : ((bumpTotals t a f).map Prod.fst).Nodup := by
  rw [bumpTotals]
  cases hl : lookupKey t a with
  | none =>
    rw [List.map_append]
    apply List.Nodup.append hnd (by simp)
    intro x hx hx2
    simp only [List.map_cons, List.map_nil, List.mem_singleton] at hx2
    subst hx2
    have : (lookupKey t x).isSome = true := (lookup_isSome_iff_mem t x).mpr hx
    rw [hl] at this
    exact Bool.noConfusion this
  | some v => exact nodup_keys_setKey hnd a (f v)

theorem keys_buildAuthorChanges_nodup (fd : FileData) (commits : List Commit) :
    ((buildAuthorChanges fd commits).map Prod.fst).Nodup := by
  have inner : ∀ (es : List HistoryEntry) (t : AuthorTable), (t.map Prod.fst).Nodup →
      ((es.foldl (fun t e =>
        bumpTotals t e.author (fun v =>
          { v with
            insertions := v.insertions + e.diff.insertions
            deletions := v.deletions + e.diff.deletions })) t).map Prod.fst).Nodup := by
    intro es
    induction es with
    | nil => intro t h; exact h
    | cons e es ih =>
      intro t h
      rw [List.foldl_cons]
      exact ih _ (keys_bumpTotals_nodup h _ _)
  have h1 : ∀ (l : FileData) (t : AuthorTable), (t.map Prod.fst).Nodup →
      ((addInsertionsDeletions l t).map Prod.fst).Nodup := by
    intro l
    induction l with
    | nil => intro t h; exact h
    | cons p l ih =>
      intro t h
      rw [addInsertionsDeletions, List.foldl_cons]
      exact ih _ (inner p.2 t h)
  have h2 : ∀ (cs : List Commit) (t : AuthorTable), (t.map Prod.fst).Nodup →
      ((addCommitCounts cs t).map Prod.fst).Nodup := by
    intro cs
    induction cs with
    | nil => intro t h; exact h
    | cons c cs ih =>
      intro t h
      rw [addCommitCounts, List.foldl_cons]
      exact ih _ (keys_bumpTotals_nodup h _ _)
  exact h2 commits _ (h1 fd [] (by simp))

/-- C9: Ranking order and limit — the contributor ranking lists at most
`limit` authors, in an order where every earlier author either has strictly
more insertions than every later one, or has equal insertions and was seen
earlier in the `authorChanges` insertion order (the ECMAScript sort is
stable). -/
theorem claim_C9_ranking_order (fd : FileData) (commits : List Commit) (limit : Nat) :
    (analyzeTopContributors fd commits limit).length ≤ limit ∧
      ((analyzeTopContributors fd commits limit).map Prod.fst).Pairwise
        (fun a b =>
          insertionsOf (buildAuthorChanges fd commits) b
              < insertionsOf (buildAuthorChanges fd commits) a ∨
            (insertionsOf (buildAuthorChanges fd commits) a
                = insertionsOf (buildAuthorChanges fd commits) b ∧
              ((buildAuthorChanges fd commits).map Prod.fst).indexOf a
                < ((buildAuthorChanges fd commits).map Prod.fst).indexOf b)) := by
  constructor
  · rw [analyzeTopContributors]
    simp only [List.length_map, List.length_take]
    omega
  · have hfst : (analyzeTopContributors fd commits limit).map Prod.fst
        = (sortDesc (buildAuthorChanges fd commits)
            ((buildAuthorChanges fd commits).map Prod.fst)).take limit := by
      rw [analyzeTopContributors]
      simp only [List.map_map]
      have hid : (Prod.fst ∘ fun a => (a, totalsOf (buildAuthorChanges fd commits) a))
          = id := rfl
      rw [hid, List.map_id]
    rw [hfst]
    apply List.Pairwise.sublist (List.take_sublist _ _)
    exact pairwise_sortDesc (buildAuthorChanges fd commits)
      (fun a => ((buildAuthorChanges fd commits).map Prod.fst).indexOf a)
      ((buildAuthorChanges fd commits).map Prod.fst)
      (pairwise_indexOf_lt (keys_buildAuthorChanges_nodup fd commits))

/-! ### No division by zero in the ranking -/

theorem keys_bumpTotals_sub {t : AuthorTable} {a x : String} {f : Totals → Totals}
    (hx : x ∈ (bumpTotals t a f).map Prod.fst) : x ∈ t.map Prod.fst ∨ x = a := by
  rw [bumpTotals] at hx
  cases hl : lookupKey t a with
  | none =>
    rw [hl, List.map_append] at hx
    rcases List.mem_append.mp hx with h | h
    · exact Or.inl h
    · simp only [List.map_cons, List.map_nil, List.mem_singleton] at h
      exact Or.inr h
  | some v =>
    rw [hl, keys_setKey] at hx
    simp only [hl, Option.isSome_some, if_true] at hx
    exact Or.inl hx

theorem keys_addInsDel_sub (fd : FileData) :
    ∀ (t : AuthorTable) (x : String),
      x ∈ (addInsertionsDeletions fd t).map Prod.fst →
      x ∈ t.map Prod.fst ∨ x ∈ (allEntriesList fd).map HistoryEntry.author := by
  have inner : ∀ (es : List HistoryEntry) (t : AuthorTable) (x : String),
      x ∈ ((es.foldl (fun t e =>
          bumpTotals t e.author (fun v =>
            { v with
              insertions := v.insertions + e.diff.insertions
              deletions := v.deletions + e.diff.deletions })) t).map Prod.fst) →
      x ∈ t.map Prod.fst ∨ x ∈ es.map HistoryEntry.author := by
    intro es
    induction es with
    | nil => intro t x hx; exact Or.inl hx
    | cons e es ih =>
      intro t x hx
      rw [List.foldl_cons] at hx
      rcases ih _ x hx with h | h
      · rcases keys_bumpTotals_sub h with h2 | h2
        · exact Or.inl h2
        · exact Or.inr (by rw [List.map_cons]; exact List.mem_cons.mpr (Or.inl h2))
      · exact Or.inr (by rw [List.map_cons]; exact List.mem_cons.mpr (Or.inr h))
  intro t x
  rw [addInsertionsDeletions]
  induction fd generalizing t with
  | nil => intro hx; exact Or.inl hx
  | cons p fd ih =>
    intro hx
    rw [List.foldl_cons] at hx
    rcases ih _ hx with h | h
    · rcases inner p.2 t x h with h2 | h2
      · exact Or.inl h2
      · right
        rw [allEntriesList_cons, List.map_append, List.mem_append]
        exact Or.inl h2
    · right
      rw [allEntriesList_cons, List.map_append, List.mem_append]
      exact Or.inr h

theorem keys_addCommitCounts_sub :
    ∀ (cs : List Commit) (t : AuthorTable) (x : String),
      x ∈ (addCommitCounts cs t).map Prod.fst →
      x ∈ t.map Prod.fst ∨ x ∈ cs.map Commit.author_name := by
  intro cs
  induction cs with
  | nil => intro t x hx; exact Or.inl hx
  | cons c cs ih =>
    intro t x hx
    rw [addCommitCounts, List.foldl_cons] at hx
    rcases ih _ x hx with h | h
    · rcases keys_bumpTotals_sub h with h2 | h2
      · exact Or.inl h2
      · exact Or.inr (by rw [List.map_cons]; exact List.mem_cons.mpr (Or.inl h2))
    · exact Or.inr (by rw [List.map_cons]; exact List.mem_cons.mpr (Or.inr h))

theorem mem_allEntries_processData {fuel : Nat} {t : FileData} {e : HistoryEntry}
    (he : e ∈ allEntriesList (processData fuel t).1) : e ∈ allEntriesList t := by
  have h := allEntries_processData fuel t
  rw [allEntries, allEntries] at h
  have h2 : e ∈ (allEntriesList (processData fuel t).1 : Multiset HistoryEntry) :=
    Multiset.mem_coe.mpr he
  rw [h] at h2
  exact Multiset.mem_coe.mp h2

theorem mem_ranking {fd : FileData} {commits : List Commit} {limit : Nat}
    {p : String × Totals} (hp : p ∈ analyzeTopContributors fd commits limit) :
    p.1 ∈ (buildAuthorChanges fd commits).map Prod.fst ∧
      p.2 = totalsOf (buildAuthorChanges fd commits) p.1 := by
  rw [analyzeTopContributors] at hp
  obtain ⟨a, ha, hpa⟩ := List.mem_map.mp hp
  constructor
  · have h1 : a ∈ sortDesc (buildAuthorChanges fd commits)
        ((buildAuthorChanges fd commits).map Prod.fst) := List.mem_of_mem_take ha
    have h2 := (perm_sortDesc (buildAuthorChanges fd commits) _).mem_iff.mp h1
    rw [← hpa]
    exact h2
  · rw [← hpa]

/-- C10: No division by zero in the ranking — every developer listed by
`analyzeTopContributors` on the full pipeline has a commit count of at least
one, because every author key of `authorChanges` either comes from a history
entry (whose author wrote one of the raw commits, by conservation through
rename resolution) or directly from a raw commit, and the raw-commit pass
counts one commit per authored record.  The files-per-commit average
therefore never divides by zero. -/
theorem claim_C10_commits_positive (commits : List Commit) (limit fuel : Nat) :
    ∀ p ∈ analyzeTopContributors
        (processData fuel (processCommits commits).1).1 commits limit,
      1 ≤ p.2.commits := by
  intro p hp
  obtain ⟨hkey, hval⟩ := mem_ranking hp
  have hmem : p.1 ∈ commits.map Commit.author_name := by
    rcases keys_addCommitCounts_sub commits _ p.1
        (by rw [buildAuthorChanges] at hkey; exact hkey) with h | h
    · rcases keys_addInsDel_sub _ [] p.1 h with h2 | h2
      · simp at h2
      · obtain ⟨e, he, hea⟩ := List.mem_map.mp h2
        have he2 := mem_allEntries_processData he
        have he3 := processCommits_pres
          (fun e => e.author ∈ commits.map Commit.author_name) commits
          (fun c hc d _ => List.mem_map.mpr ⟨c, hc, rfl⟩) e he2
        rw [← hea]
        exact he3
    · exact h
  have hcount := (totalsOf_addCommitCounts commits
    (addInsertionsDeletions (processData fuel (processCommits commits).1).1 []) p.1).2
  have hfilter : 1 ≤ (commits.filter (fun c => c.author_name = p.1)).length := by
    obtain ⟨c, hc, hca⟩ := List.mem_map.mp hmem
    have hmemf : c ∈ commits.filter (fun c => c.author_name = p.1) :=
      List.mem_filter.mpr ⟨hc, by simp [hca]⟩
    exact List.length_pos_of_mem hmemf
  rw [hval]
  show 1 ≤ (totalsOf (buildAuthorChanges
    (processData fuel (processCommits commits).1).1 commits) p.1).commits
  rw [buildAuthorChanges, hcount]
  omega

/-- Witness for C10 at a one-commit pipeline: the single ranked author has
commit count one. -/
theorem claim_C10_witness :
    ("x", (⟨3, 2, 1, 1⟩ : Totals)) ∈ analyzeTopContributors
        (processData 1 (processCommits [plainCommit]).1).1 [plainCommit] 5 ∧
      1 ≤ (⟨3, 2, 1, 1⟩ : Totals).commits :=
  ⟨by decide,
    claim_C10_commits_positive [plainCommit] 5 1 ("x", ⟨3, 2, 1, 1⟩) (by decide)⟩

end RepoAnalysis
